import Mathlib

/-!
# email-to-vtodo: a shallow embedding and its verified properties

The Go program `email-to-vtodo.go` turns one e-mail message into an iCalendar
VTODO document.  Go strings are byte sequences, so a string is modelled as a
list of bytes.  The standard-library routines the program calls (`regexp`,
`net/url`, `html`, `strings`, `fmt`, `text/template`, `time`) are modelled by
the behaviour they have on the fixed arguments the program passes to them.
-/

namespace EmailToVtodo

/-! ## Bytes and strings -/

/-- One byte of a Go string. -/
abbrev Byte := Fin 256

/-- The contents of a Go `string`: a sequence of bytes. -/
abbrev Str := List Byte

/-- Build a byte from a natural number (reduced modulo 256). -/
def byte (n : Nat) : Byte := ⟨n % 256, Nat.mod_lt n (by decide)⟩

/-- UTF-8 encoding of one code point, as a Go source literal is stored. -/
def utf8 (c : Char) : Str :=
  let n := c.toNat
  if n < 128 then [byte n]
  else if n < 2048 then [byte (192 + n / 64), byte (128 + n % 64)]
  else if n < 65536 then
    [byte (224 + n / 4096), byte (128 + n / 64 % 64), byte (128 + n % 64)]
  else
    [byte (240 + n / 262144), byte (128 + n / 4096 % 64),
     byte (128 + n / 64 % 64), byte (128 + n % 64)]

/-- The bytes of the characters of a literal. -/
def strChars : List Char → Str
  | [] => []
  | c :: cs => utf8 c ++ strChars cs

/-- The Go string written as the literal `s`. -/
def str (s : String) : Str := strChars s.data

/-- Line feed, `'\n'`. -/
def LF : Byte := 10
/-- The byte `'%'`. -/
def PERCENT : Byte := 37
/-- The byte `'='`. -/
def EQUALS : Byte := 61
/-- The byte `'?'`. -/
def QUESTION : Byte := 63

/-! ## `unicode/utf8` -/

/-- Size of the encoding a leading byte in `0xC2..0xF4` announces (the low
bits of its entry in the table `first` of package `utf8`). -/
def runeSize (p0 : Byte) : Nat := if p0.val < 224 then 2 else if p0.val < 240 then 3 else 4

/-- Lowest second byte accepted after the leading byte (`acceptRanges`). -/
def acceptLo (p0 : Byte) : Nat := if p0.val = 224 then 160 else if p0.val = 240 then 144 else 128

/-- Highest second byte accepted after the leading byte (`acceptRanges`). -/
def acceptHi (p0 : Byte) : Nat := if p0.val = 237 then 159 else if p0.val = 244 then 143 else 191

/-- Width returned by `utf8.DecodeRuneInString`: the number of bytes the first
rune of the string occupies (0 for the empty string, 1 for an ASCII byte and
for every invalid or truncated encoding, which decodes as U+FFFD).  The test
`n < sz` of the Go code, which returns width 1 for a truncated encoding, is
the case where the bytes run out below. -/
def decodeRuneWidth : Str → Nat
  | [] => 0
  | p0 :: rest =>
    if p0.val < 128 then 1
    else if p0.val < 194 ∨ 244 < p0.val then 1
    else
      match rest with
      | [] => 1
      | b1 :: rest1 =>
        if b1.val < acceptLo p0 ∨ acceptHi p0 < b1.val then 1
        else if runeSize p0 ≤ 2 then 2
        else
          match rest1 with
          | [] => 1
          | b2 :: rest2 =>
            if b2.val < 128 ∨ 191 < b2.val then 1
            else if runeSize p0 ≤ 3 then 3
            else
              match rest2 with
              | [] => 1
              | b3 :: _ => if b3.val < 128 ∨ 191 < b3.val then 1 else 4

/-! ## `regexp`: the two patterns of `subject_decode` -/

/-- The character class `[a-zA-Z0-9_\-]`. -/
def isCharsetByte (b : Byte) : Bool :=
  (97 ≤ b.val && b.val ≤ 122) || (65 ≤ b.val && b.val ≤ 90) ||
  (48 ≤ b.val && b.val ≤ 57) || b.val == 95 || b.val == 45

/-- The character class `[A-F0-9]`. -/
def isUpperHex (b : Byte) : Bool :=
  (65 ≤ b.val && b.val ≤ 70) || (48 ≤ b.val && b.val ≤ 57)

/-- The tail `(.*)\?=` of the first pattern, matched at the head of the
string: the greedy star first runs on over the byte at hand (never over a line
feed) and only when nothing matches further on tries `\?=` here.  On a match
the result is the capture and the text that follows the match.  The star steps
over runes; `?` is an ASCII byte and so never lies inside a multi-byte rune,
which makes stepping over bytes equivalent. -/
def matchPayload : Str → Option (Str × Str)
  | [] => none
  | b :: rest =>
    if b = LF then none
    else
      match matchPayload rest with
      | some (cap, after) => some (b :: cap, after)
      | none =>
        if b = QUESTION then
          match rest with
          | [] => none
          | c :: after => if c = EQUALS then some ([], after) else none
        else none

/-- The pattern `^=\?[a-zA-Z0-9_\-]*\?.\?(.*)\?=` matched at the start of
`name`: capture group 1 and the text after the match, or `none`. -/
def matchEncodedWord (name : Str) : Option (Str × Str) :=
  match name with
  | b0 :: b1 :: r0 =>
    if b0 = EQUALS ∧ b1 = QUESTION then
      match r0.dropWhile isCharsetByte with
      | [] => none
      | q1 :: r1 =>
        if q1 = QUESTION then
          match r1 with
          | [] => none
          | e0 :: _ =>
            if e0 = LF then none
            else
              match r1.drop (decodeRuneWidth r1) with
              | [] => none
              | q2 :: r2 => if q2 = QUESTION then matchPayload r2 else none
        else none
    else none
  | _ => none

/-- The call `re.ReplaceAllString(name, "$1")` for the first pattern.  The
pattern is anchored with `^`, so it matches at offset 0 or not at all; the
match is replaced by capture group 1 and the text after it is copied. -/
def replaceEncodedWord (name : Str) : Str :=
  match matchEncodedWord name with
  | some (cap, after) => cap ++ after
  | none => name

/-- The call `re.ReplaceAllString(newName, "%$1")` for the second pattern
`=([A-F0-9][A-F0-9])`: leftmost matches, left to right, without overlap. -/
def replaceQuotedHex : Str → Str
  | c :: a :: b :: rest =>
    if c = EQUALS ∧ isUpperHex a = true ∧ isUpperHex b = true then
      PERCENT :: a :: b :: replaceQuotedHex rest
    else c :: replaceQuotedHex (a :: b :: rest)
  | c :: tl => c :: replaceQuotedHex tl
  | [] => []

/-! ## `net/url` -/

/-- The function `ishex` of `net/url`. -/
def ishex (c : Byte) : Bool :=
  (48 ≤ c.val && c.val ≤ 57) || (97 ≤ c.val && c.val ≤ 102) ||
  (65 ≤ c.val && c.val ≤ 70)

/-- The function `unhex` of `net/url`. -/
def unhex (c : Byte) : Nat :=
  if 48 ≤ c.val ∧ c.val ≤ 57 then c.val - 48
  else if 97 ≤ c.val ∧ c.val ≤ 102 then c.val - 97 + 10
  else if 65 ≤ c.val ∧ c.val ≤ 70 then c.val - 65 + 10
  else 0

/-- First loop of `unescape`: every `%` is followed by two hex digits. -/
def percentWellFormed : Str → Bool
  | [] => true
  | c :: tl =>
    if c = PERCENT then
      match tl with
      | a :: b :: rest => ishex a && ishex b && percentWellFormed rest
      | _ => false
    else percentWellFormed tl

/-- Second loop of `unescape` in path mode: `%XY` becomes the byte
`unhex X << 4 | unhex Y`, every other byte (`+` included) is copied. -/
def percentDecode : Str → Str
  | [] => []
  | c :: tl =>
    if c = PERCENT then
      match tl with
      | a :: b :: rest => byte (unhex a * 16 + unhex b) :: percentDecode rest
      | _ => []
    else c :: percentDecode tl

/-- The function `url.PathUnescape`: `none` stands for the `EscapeError`. -/
def PathUnescape (s : Str) : Option Str :=
  if percentWellFormed s then some (percentDecode s) else none

/-! ## `subject_decode` -/

/-- The function `subject_decode`.  The error of `url.PathUnescape` is
discarded, which leaves the empty string it returns with an error. -/
def subject_decode (name : Str) : Str :=
  let newName := replaceEncodedWord name
  if newName ≠ name then
    (PathUnescape (replaceQuotedHex newName)).getD []
  else newName

/-! ## `strings`, `html`, `fmt` -/

/-- The loop of `strings.Replace(s, old, new, -1)` for a non-empty `old`:
`skip` counts the bytes of an occurrence of `old` that are still to be passed
over; outside an occurrence, an occurrence of `old` at the head is replaced by
`new` and any other byte is copied. -/
def stringsReplaceAux (old new : Str) : Nat → Str → Str
  | _, [] => []
  | skip + 1, _ :: tl => stringsReplaceAux old new skip tl
  | 0, c :: tl =>
    if old.isPrefixOf (c :: tl) then new ++ stringsReplaceAux old new (old.length - 1) tl
    else c :: stringsReplaceAux old new 0 tl

/-- The function `strings.Replace(s, old, new, -1)`, for a non-empty `old`. -/
def stringsReplace (s old new : Str) : Str :=
  if old = new then s else stringsReplaceAux old new 0 s

/-- The function `html.EscapeString`: the five bytes `&`, `'`, `<`, `>` and `"`
are replaced by their entities. -/
def EscapeString : Str → Str
  | [] => []
  | c :: tl =>
    (if c.val = 38 then str "&amp;"
     else if c.val = 39 then str "&#39;"
     else if c.val = 60 then str "&lt;"
     else if c.val = 62 then str "&gt;"
     else if c.val = 34 then str "&#34;"
     else [c]) ++ EscapeString tl

/-- The digit table `ldigits` of package `fmt`. -/
def ldigits : Str := str "0123456789abcdefx"

/-- The verb `%x` applied to a byte slice: two lowercase hex digits per byte,
`digits[c>>4]` and `digits[c&0xF]`. -/
def fmtHex : Str → Str
  | [] => []
  | c :: tl => ldigits.getD (c.val / 16) 0 :: ldigits.getD (c.val % 16) 0 :: fmtHex tl

/-- The slice expression `s[i:j]`. -/
def slice (s : Str) (i j : Nat) : Str := (s.take j).drop i

/-! ## `get_uuid` -/

/-- The function `get_uuid`.  The argument is what `rand.Read` delivers: the
16 bytes, or `none` for an error, on which `log.Fatal` ends the process. -/
def get_uuid (rnd : Option (Fin 16 → Byte)) : Option Str :=
  match rnd with
  | none => none
  | some r =>
    let b : Str := List.ofFn r
    some (fmtHex (slice b 0 4) ++ str "-" ++ fmtHex (slice b 4 6) ++ str "-" ++
      fmtHex (slice b 6 8) ++ str "-" ++ fmtHex (slice b 8 10) ++ str "-" ++
      fmtHex (b.drop 10))

/-! ## `html_to_text` and `get_description` -/

/-- The options structure `opts` (`Typ` is the field `Type`). -/
structure Opts where
  Verbose : Bool
  CalPath : Str
  EmailFile : Str
  Typ : Str
  HtmlCmd : Str

/-- What `html_to_text` obtains from the operating system: the name of the
temporary file `ioutil.TempFile` creates (`none` for an error), and the
standard output `cmd.Output()` captures from `sh -c` for a command template,
a file name and the text written to that file. -/
structure Sys where
  tempFile : Option Str
  run : Str → Str → Str → Str

/-- The function `html_to_text`; `none` is the process ended by `log.Fatal`. -/
def html_to_text (opts : Opts) (sys : Sys) (html : Str) : Option Str :=
  if opts.HtmlCmd = [] then some html
  else
    match sys.tempFile with
    | none => none
    | some name => some (sys.run opts.HtmlCmd name html)

/-- One element of `msg.MessagesAll()`: its media type, as
`part.Header.ContentType()` returns it, and its body. -/
structure Part where
  mediaType : Str
  body : Str
  deriving DecidableEq

/-- The variables `body`, `plain` and `html` of `get_description`. -/
structure Bodies where
  body : Str
  plain : Str
  html : Str

/-- One iteration of the loop of `get_description`. -/
def visitPart (render : Str → Option Str) (st : Bodies) (part : Part) : Option Bodies :=
  if part.mediaType = str "text/html" then
    match render part.body with
    | none => none
    | some h => some { st with html := h, body := if st.body = [] then h else st.body }
  else if part.mediaType = str "text/plain" then
    some { st with plain := part.body, body := if st.body = [] then part.body else st.body }
  else some st

/-- The loop of `get_description` over the parts, in order. -/
def visitParts (render : Str → Option Str) : List Part → Bodies → Option Bodies
  | [], st => some st
  | part :: rest, st =>
    match visitPart render st part with
    | none => none
    | some st1 => visitParts render rest st1

/-- The two `if` statements after the loop of `get_description`. -/
def chooseBody (typ : Str) (st : Bodies) : Str :=
  let body := if st.html ≠ [] ∧ typ = str "text/html" then st.html else st.body
  if st.plain ≠ [] ∧ typ = str "text/plain" then st.plain else body

/-- The function `get_description`, with the callee `html_to_text` passed as
`render` and `opts.Type` as `typ`; `parts` is `msg.MessagesAll()`. -/
def get_description (render : Str → Option Str) (typ : Str) (parts : List Part) :
    Option Str :=
  match visitParts render parts ⟨[], [], []⟩ with
  | none => none
  | some st => some (stringsReplace (chooseBody typ st) (str "\n") (str "\\n"))

/-! ## `time` -/

/-- A `time.Time` as `Format` reads it: the calendar date and clock time in the
zone of the value, and the offset of that zone in seconds east of UTC. -/
structure Time where
  year : Int
  month : Nat
  day : Nat
  hour : Nat
  minute : Nat
  second : Nat
  offset : Int

/-- The zero `time.Time`: January 1, year 1, 00:00:00 UTC. -/
def zeroTime : Time := ⟨1, 1, 1, 0, 0, 0, 0⟩

/-- Decimal digits of `n`, most significant first, added in front of `acc`. -/
def decimalAux : Nat → Nat → Str → Str
  | 0, _, acc => acc
  | fuel + 1, n, acc =>
    if n < 10 then byte (48 + n) :: acc
    else decimalAux fuel (n / 10) (byte (48 + n % 10) :: acc)

/-- Decimal digits of `n`. -/
def decimal (n : Nat) : Str := decimalAux (n + 1) n []

/-- The function `appendInt` of package `time`: a minus sign for a negative
number, zero padding up to `width` digits, the decimal digits. -/
def appendInt (x : Int) (width : Nat) : Str :=
  let ds := decimal x.natAbs
  (if x < 0 then str "-" else []) ++ List.replicate (width - ds.length) (byte 48) ++ ds

/-- The call `t.Format("20060102T150405Z")`: year, month, day, `T`, hour,
minute, second and a literal `Z`. -/
def formatStamp (t : Time) : Str :=
  appendInt t.year 4 ++ appendInt t.month 2 ++ appendInt t.day 2 ++ str "T" ++
  appendInt t.hour 2 ++ appendInt t.minute 2 ++ appendInt t.second 2 ++ str "Z"

/-! ## `text/template` -/

/-- Value of a field of the data map; a missing key prints as `<no value>`. -/
def lookupField : List (Str × Str) → Str → Str
  | [], _ => str "<no value>"
  | (k, v) :: rest, key => if k = key then v else lookupField rest key

/-- Execution of a template made of literal text and field actions
`{{.Name}}` on a map of strings.  The state is `none` inside literal text and
`some acc` inside an action, `acc` being the bytes of the field name read so
far in reverse order.  Text is copied, an action prints the value of its
field without escaping. -/
def templExecute (m : List (Str × Str)) : Option Str → Str → Str
  | none, c :: a :: b :: rest =>
    if c.val = 123 ∧ a.val = 123 ∧ b.val = 46 then templExecute m (some []) rest
    else c :: templExecute m none (a :: b :: rest)
  | none, c :: tl => c :: templExecute m none tl
  | some acc, c :: a :: rest =>
    if c.val = 125 ∧ a.val = 125 then lookupField m acc.reverse ++ templExecute m none rest
    else templExecute m (some (c :: acc)) (a :: rest)
  | some acc, c :: tl => templExecute m (some (c :: acc)) tl
  | _, [] => []

/-! ## `main` -/

/-- The template text `icsVtodo` of `main`. -/
def icsVtodo : Str := str (
  "BEGIN:VCALENDAR\n" ++
  "VERSION:2.0\n" ++
  "PRODID:-//Nextcloud Tasks vundefined\n" ++
  "BEGIN:VTODO\n" ++
  "CREATED;VALUE=DATE-TIME:\x7b\x7b.Created\x7d\x7d\n" ++
  "DESCRIPTION:\x7b\x7b.Description\x7d\x7d\n" ++
  "DTSTAMP;VALUE=DATE-TIME:\x7b\x7b.Dtstamp\x7d\x7d\n" ++
  "LAST-MODIFIED;VALUE=DATE-TIME:\x7b\x7b.Created\x7d\x7d\n" ++
  "PERCENT-COMPLETE:0\n" ++
  "PRIORITY:0\n" ++
  "SEQUENCE:6\n" ++
  "STATUS:NEEDS-ACTION\n" ++
  "SUMMARY:\x7b\x7b.Summary\x7d\x7d\n" ++
  "UID:\x7b\x7b.Uuid\x7d\x7d\n" ++
  "X-OC-HIDESUBTASKS:0\n" ++
  "END:VTODO\n" ++
  "END:VCALENDAR")

/-- The data map `m` of `main` and the execution of the template on it. -/
def compose (summary dtstamp created description uuid : Str) : Str :=
  templExecute
    [(str "Summary", summary), (str "Dtstamp", dtstamp), (str "Created", created),
     (str "Description", description), (str "Uuid", uuid)]
    none icsVtodo

/-- A parsed message, as far as `main` reads it: `msg.Header.Subject()`,
`msg.Header.Date()` (`none` when it returns an error) and `msg.MessagesAll()`. -/
structure Message where
  subject : Str
  date : Option Time
  parts : List Part

/-- The function `main` after the options are parsed, for a parsed message
`msg`, the bytes `rnd` of the random source and the current time `now`: the
name of the file written and its content, or `none` when the process is ended
by `log.Fatal` before. -/
def main (opts : Opts) (sys : Sys) (rnd : Option (Fin 16 → Byte)) (now : Time)
    (msg : Message) : Option (Str × Str) :=
  match get_uuid rnd with
  | none => none
  | some uuid =>
    match get_description (html_to_text opts sys) opts.Typ msg.parts with
    | none => none
    | some description =>
      let date := msg.date.getD zeroTime
      let content := compose (EscapeString (subject_decode msg.subject))
        (formatStamp date) (formatStamp now) description uuid
      some (opts.CalPath ++ str "/" ++ uuid ++ str ".ics", content)

/-- The function `email_file_to_msg`: `parsed` is the message
`email.ParseMessage` yields for the content of the file, `none` when it yields
no message (a nil pointer) and reports an error; the error is discarded. -/
def email_file_to_msg (parsed : Option Message) : Option Message := parsed

/-- The function `main` from the call of `email_file_to_msg` on.  With a nil
message the expression `msg.Header` is a nil pointer dereference, a run-time
panic that ends the process before anything is composed or written (`none`). -/
def mainFromFile (opts : Opts) (sys : Sys) (rnd : Option (Fin 16 → Byte)) (now : Time)
    (parsed : Option Message) : Option (Str × Str) :=
  match email_file_to_msg parsed with
  | none => none
  | some msg => main opts sys rnd now msg

/-! ## Specification-side definitions -/

/-- The escaping the specification describes for the description: every line
feed becomes the two bytes backslash and `n`, every other byte is kept. -/
def escapeNewlines : Str → Str
  | [] => []
  | c :: tl => if c = LF then byte 92 :: byte 110 :: escapeNewlines tl else c :: escapeNewlines tl

/-- The media type of the part is `text/plain` or `text/html`. -/
def isTextPart (p : Part) : Bool :=
  decide (p.mediaType = str "text/html") || decide (p.mediaType = str "text/plain")

/-- The body of a part as the selector records it: passed through the renderer
`f` when the part is `text/html`, as it is otherwise. -/
def renderedBody (f : Str → Str) (p : Part) : Str :=
  if p.mediaType = str "text/html" then f p.body else p.body

/-- The last part, in document order, whose media type is `T`. -/
def lastOfType (T : Str) (parts : List Part) : Option Part :=
  (parts.filter (fun p => decide (p.mediaType = T))).getLast?

/-- The first part, in document order, whose media type is `text/plain` or
`text/html`. -/
def firstTextPart (parts : List Part) : Option Part := (parts.filter isTextPart).head?

/-- The recorded body of the first part, in document order, whose media type is
`text/plain` or `text/html` and whose recorded body is not empty; the empty
string when there is no such part. -/
def firstNonEmptyText (f : Str → Str) (parts : List Part) : Str :=
  (((parts.filter isTextPart).map (renderedBody f)).find? (fun t => decide (t ≠ []))).getD []

/-- The string `e` is one character other than a line feed, as the pattern
`.` consumes it: exactly one rune in the sense of `utf8.DecodeRuneInString`
(a single byte, or a complete multi-byte encoding). -/
def IsChar (e : Str) : Prop := e ≠ [] ∧ e ≠ [LF] ∧ decodeRuneWidth e = e.length

instance (e : Str) : Decidable (IsChar e) := by unfold IsChar; infer_instance

/-- Value of an uppercase hexadecimal digit. -/
def hexValue (b : Byte) : Nat := if b.val ≤ 57 then b.val - 48 else b.val - 55

/-- The decoding the specification describes: every `=XX`, `X` an uppercase
hex digit, scanned left to right without overlap, becomes the byte with hex
value `XX`; every other byte is unchanged. -/
def decodeQuotedHex : Str → Str
  | c :: a :: b :: rest =>
    if c = EQUALS ∧ isUpperHex a = true ∧ isUpperHex b = true then
      byte (hexValue a * 16 + hexValue b) :: decodeQuotedHex rest
    else c :: decodeQuotedHex (a :: b :: rest)
  | c :: tl => c :: decodeQuotedHex tl
  | [] => []

/-- The lowercase hexadecimal digit of value `n`, for `n` below 16. -/
def hexDigit (n : Nat) : Byte := if n < 10 then byte (48 + n) else byte (87 + n)

/-- The two-digit lowercase hexadecimal writing of a byte. -/
def hexByte (b : Byte) : Str := [hexDigit (b.val / 16), hexDigit (b.val % 16)]

/-- The byte is one of `0`..`9`, `a`..`f`. -/
def isLowerHex (c : Byte) : Bool :=
  (48 ≤ c.val && c.val ≤ 57) || (97 ≤ c.val && c.val ≤ 102)

/-- The text made of the given lines, separated by line feeds, with no line
feed after the last one. -/
def joinLines : List Str → Str
  | [] => []
  | [l] => l
  | l :: ls => l ++ LF :: joinLines ls

/-- The lines of a text: the pieces between its line-feed bytes. -/
def splitLines : Str → List Str
  | [] => [[]]
  | c :: tl =>
    if c = LF then [] :: splitLines tl
    else
      match splitLines tl with
      | [] => [[c]]
      | l :: ls => (c :: l) :: ls

/-- The text `s` starts with `pre`. -/
def startsWith : Str → Str → Bool
  | [], _ => true
  | p :: ps, s =>
    match s with
    | [] => false
    | c :: cs => p == c && startsWith ps cs

/-- The seventeen lines of the document the specification gives, with the
values put in as they are. -/
def docLines (summary dtstamp created description uuid : Str) : List Str :=
  [str "BEGIN:VCALENDAR",
   str "VERSION:2.0",
   str "PRODID:-//Nextcloud Tasks vundefined",
   str "BEGIN:VTODO",
   str "CREATED;VALUE=DATE-TIME:" ++ created,
   str "DESCRIPTION:" ++ description,
   str "DTSTAMP;VALUE=DATE-TIME:" ++ dtstamp,
   str "LAST-MODIFIED;VALUE=DATE-TIME:" ++ created,
   str "PERCENT-COMPLETE:0",
   str "PRIORITY:0",
   str "SEQUENCE:6",
   str "STATUS:NEEDS-ACTION",
   str "SUMMARY:" ++ summary,
   str "UID:" ++ uuid,
   str "X-OC-HIDESUBTASKS:0",
   str "END:VTODO",
   str "END:VCALENDAR"]

/-- The byte `&`. -/
def AMP : Byte := 38

/-- The five entities `html.EscapeString` produces. -/
def entities : List Str := [str "&lt;", str "&gt;", str "&amp;", str "&#39;", str "&#34;"]

/-- Every `&` of the text starts one of the five entities. -/
def ampersandsStartEntities : Str → Bool
  | [] => true
  | c :: tl =>
    (c != AMP || entities.any (fun e => startsWith e (c :: tl))) && ampersandsStartEntities tl

/-- The text contains a `%` that is not followed by two hexadecimal digits. -/
def HasBadPercent (s : Str) : Prop :=
  ∃ pre post : Str, s = pre ++ PERCENT :: post ∧
    ¬ ∃ a b rest, post = a :: b :: rest ∧ ishex a = true ∧ ishex b = true

/-- The decimal digit of value `d`, for `d` below 10. -/
def digit (d : Nat) : Byte := byte (48 + d)

/-- A number below 100 written with two digits. -/
def pad2 (n : Nat) : Str := [digit (n / 10), digit (n % 10)]

/-- A number below 10000 written with four digits. -/
def pad4 (n : Nat) : Str :=
  [digit (n / 1000), digit (n / 100 % 10), digit (n / 10 % 10), digit (n % 10)]

/-- The number a string of decimal digits writes. -/
def decimalValue (s : Str) : Nat := s.foldl (fun v c => v * 10 + (c.val - 48)) 0

/-- The ranges of the calendar and clock fields of a `time.Time`. -/
def Time.Valid (t : Time) : Prop :=
  1 ≤ t.month ∧ t.month ≤ 12 ∧ 1 ≤ t.day ∧ t.day ≤ 31 ∧
  t.hour ≤ 23 ∧ t.minute ≤ 59 ∧ t.second ≤ 59

instance (t : Time) : Decidable t.Valid := by unfold Time.Valid; infer_instance

/-- Days from 1970-01-01 to the given date of the proleptic Gregorian
calendar. -/
def civilDays (year : Int) (month day : Nat) : Int :=
  let y : Int := if month ≤ 2 then year - 1 else year
  let era : Int := y / 400
  let yoe : Int := y - era * 400
  let mp : Int := if month ≤ 2 then (month : Int) + 9 else (month : Int) - 3
  let doy : Int := (153 * mp + 2) / 5 + (day : Int) - 1
  let doe : Int := yoe * 365 + yoe / 4 - yoe / 100 + doy
  era * 146097 + doe - 719468

/-- Seconds from 1970-01-01 00:00:00 to the date and clock time the value
shows, read without regard to its zone. -/
def wallSeconds (t : Time) : Int :=
  civilDays t.year t.month t.day * 86400 + (t.hour : Int) * 3600 + (t.minute : Int) * 60 +
    (t.second : Int)

/-- The instant the value denotes, in seconds since 1970-01-01 00:00:00 UTC:
its wall-clock reading less the offset of its zone. -/
def instant (t : Time) : Int := wallSeconds t - t.offset

/-- The pattern `=?<charset>?<encoding-char>?<payload>?=` matches at the start
of `name`: `name` is such a token followed by any text. -/
def StartsWithEncodedWord (name : Str) : Prop :=
  ∃ charset e payload suffix : Str,
    name = str "=?" ++ charset ++ str "?" ++ e ++ str "?" ++ payload ++ str "?=" ++ suffix ∧
    (∀ b ∈ charset, isCharsetByte b = true) ∧ IsChar e ∧ LF ∉ payload

/-! ## Lemmas on the regular expressions -/

theorem str_eq_question : str "=?" = [EQUALS, QUESTION] := by decide
theorem str_question : str "?" = [QUESTION] := by decide
theorem str_question_eq : str "?=" = [QUESTION, EQUALS] := by decide

theorem dropWhile_charset (cs t : Str) (h : ∀ b ∈ cs, isCharsetByte b = true) :
    (cs ++ QUESTION :: t).dropWhile isCharsetByte = QUESTION :: t := by
  induction cs with
  | nil => simp [List.dropWhile, show isCharsetByte QUESTION = false by decide]
  | cons c cs ih =>
    have hc : isCharsetByte c = true := h c (List.mem_cons_self _ _)
    simp only [List.cons_append, List.dropWhile, hc]
    exact ih (fun b hb => h b (List.mem_cons_of_mem _ hb))

theorem decodeRuneWidth_le (s : Str) : decodeRuneWidth s ≤ 4 := by
  rcases s with _ | ⟨p0, _ | ⟨b1, _ | ⟨b2, _ | ⟨b3, rest⟩⟩⟩⟩
  · simp [decodeRuneWidth]
  all_goals (simp only [decodeRuneWidth]; split_ifs <;> simp)

theorem acceptLo_ge (p0 : Byte) : 128 ≤ acceptLo p0 := by
  unfold acceptLo; split_ifs <;> omega

/-- A character followed by `?` is decoded with its own width. -/
theorem decodeRuneWidth_char (e t : Str) (h : IsChar e) :
    decodeRuneWidth (e ++ QUESTION :: t) = e.length := by
  obtain ⟨hne, _, hw⟩ := h
  have h4 := decodeRuneWidth_le e
  rcases e with _ | ⟨p0, _ | ⟨b1, _ | ⟨b2, _ | ⟨b3, _ | ⟨b4, rest⟩⟩⟩⟩⟩
  · exact absurd rfl hne
  · have := acceptLo_ge p0
    simp only [List.cons_append, List.nil_append, decodeRuneWidth, List.length_singleton,
      QUESTION]
    split_ifs <;> first | rfl | (simp at *; omega)
  · simp only [List.cons_append, List.nil_append, decodeRuneWidth, List.length_cons,
      List.length_nil] at hw ⊢
    exact hw
  · simp only [List.cons_append, List.nil_append, decodeRuneWidth, List.length_cons,
      List.length_nil] at hw ⊢
    exact hw
  · simp only [List.cons_append, List.nil_append, decodeRuneWidth, List.length_cons,
      List.length_nil] at hw ⊢
    exact hw
  · rw [hw] at h4; simp at h4

theorem decodeRuneWidth_take_aux (s : Str) (w : Nat) (hw : decodeRuneWidth s = w) :
    decodeRuneWidth (s.take w) = w := by
  rcases s with _ | ⟨p0, _ | ⟨b1, _ | ⟨b2, _ | ⟨b3, rest⟩⟩⟩⟩
  · subst hw; rfl
  all_goals
    simp only [decodeRuneWidth] at hw
    split_ifs at hw <;> subst hw <;> simp [decodeRuneWidth, *]

/-- The width of the first rune is the width of the prefix it occupies. -/
theorem decodeRuneWidth_take (s : Str) :
    decodeRuneWidth (s.take (decodeRuneWidth s)) = decodeRuneWidth s :=
  decodeRuneWidth_take_aux s _ rfl

theorem decodeRuneWidth_le_length (s : Str) : decodeRuneWidth s ≤ s.length := by
  rcases s with _ | ⟨p0, _ | ⟨b1, _ | ⟨b2, _ | ⟨b3, rest⟩⟩⟩⟩
  · simp [decodeRuneWidth]
  all_goals (simp only [decodeRuneWidth, List.length_cons]; split_ifs <;> omega)

theorem decodeRuneWidth_pos (p0 : Byte) (rest : Str) : 0 < decodeRuneWidth (p0 :: rest) := by
  rcases rest with _ | ⟨b1, _ | ⟨b2, _ | ⟨b3, rest⟩⟩⟩
  all_goals (simp only [decodeRuneWidth]; split_ifs <;> omega)

theorem matchPayload_cons (b : Byte) (rest : Str) :
    matchPayload (b :: rest) =
      if b = LF then none
      else
        match matchPayload rest with
        | some (cap, after) => some (b :: cap, after)
        | none =>
          if b = QUESTION then
            match rest with
            | [] => none
            | c :: after => if c = EQUALS then some ([], after) else none
          else none := rfl

/-- The star of `(.*)\?=` is greedy: the capture ends at the last `?=` that no
line feed precedes. -/
theorem matchPayload_append (payload suffix : Str) (hp : LF ∉ payload)
    (hs : matchPayload suffix = none) :
    matchPayload (payload ++ QUESTION :: EQUALS :: suffix) = some (payload, suffix) := by
  induction payload with
  | nil =>
    have h1 : matchPayload (EQUALS :: suffix) = none := by
      rw [matchPayload_cons, hs, if_neg (by decide)]
      simp only
      rw [if_neg (by decide)]
    rw [List.nil_append, matchPayload_cons, h1, if_neg (by decide)]
    simp
  | cons b payload ih =>
    have hb : b ≠ LF := fun h => hp (h ▸ List.mem_cons_self _ _)
    have ih1 := ih (fun h => hp (List.mem_cons_of_mem _ h))
    rw [List.cons_append, matchPayload_cons, ih1, if_neg hb]

/-- A closing `?=` that no line feed precedes makes `(.*)\?=` match. -/
theorem matchPayload_isSome (payload suffix : Str) (hp : LF ∉ payload) :
    (matchPayload (payload ++ QUESTION :: EQUALS :: suffix)).isSome = true := by
  induction payload with
  | nil =>
    rw [List.nil_append, matchPayload_cons, if_neg (by decide)]
    cases matchPayload (EQUALS :: suffix) with
    | none => simp
    | some r => simp
  | cons b payload ih =>
    have hb : b ≠ LF := fun h => hp (h ▸ List.mem_cons_self _ _)
    have ih1 := ih (fun h => hp (List.mem_cons_of_mem _ h))
    rw [List.cons_append, matchPayload_cons, if_neg hb]
    cases h : matchPayload (payload ++ QUESTION :: EQUALS :: suffix) with
    | none => rw [h] at ih1; simp at ih1
    | some r => simp

/-- What `(.*)\?=` matches: the capture has no line feed and is followed by
`?=` and the rest. -/
theorem matchPayload_some (s cap after : Str) (h : matchPayload s = some (cap, after)) :
    s = cap ++ QUESTION :: EQUALS :: after ∧ LF ∉ cap := by
  induction s generalizing cap with
  | nil => exact absurd h (by rw [show matchPayload [] = none from rfl]; simp)
  | cons b rest ih =>
    rw [matchPayload_cons] at h
    by_cases hb : b = LF
    · rw [if_pos hb] at h; simp at h
    rw [if_neg hb] at h
    cases hr : matchPayload rest with
    | some r =>
      obtain ⟨c, a⟩ := r
      rw [hr] at h
      simp only [Option.some.injEq, Prod.mk.injEq] at h
      obtain ⟨h1, h2⟩ := h
      subst h1 h2
      obtain ⟨e1, e2⟩ := ih c hr
      refine ⟨by rw [e1]; rfl, ?_⟩
      simp only [List.mem_cons, not_or]
      exact ⟨fun h => hb h.symm, e2⟩
    | none =>
      rw [hr] at h
      simp only at h
      by_cases hq : b = QUESTION
      · rw [if_pos hq] at h
        cases rest with
        | nil => simp at h
        | cons c t =>
          simp only at h
          by_cases hc : c = EQUALS
          · rw [if_pos hc] at h
            simp only [Option.some.injEq, Prod.mk.injEq] at h
            obtain ⟨h1, h2⟩ := h
            subst h1 h2 hq hc
            exact ⟨rfl, by simp⟩
          · rw [if_neg hc] at h; simp at h
      · rw [if_neg hq] at h; simp at h

theorem isChar_head_ne (e0 : Byte) (rest : Str) (h : IsChar (e0 :: rest)) : e0 ≠ LF := by
  intro h0
  subst h0
  obtain ⟨_, h2, h3⟩ := h
  cases rest with
  | nil => exact h2 rfl
  | cons b t =>
    have : decodeRuneWidth (LF :: b :: t) = 1 := rfl
    rw [this] at h3
    simp at h3

/-- The first pattern on a token `=?charset?e?` followed by `r2`: what is left
to match is `(.*)\?=` on `r2`. -/
theorem matchEncodedWord_token (charset e r2 : Str)
    (hc : ∀ b ∈ charset, isCharsetByte b = true) (he : IsChar e) :
    matchEncodedWord (EQUALS :: QUESTION :: (charset ++ QUESTION :: (e ++ QUESTION :: r2))) =
      matchPayload r2 := by
  have hw := decodeRuneWidth_char e r2 he
  cases e with
  | nil => exact absurd rfl he.1
  | cons e0 erest =>
    have h0 := isChar_head_ne e0 erest he
    simp only [matchEncodedWord, and_self, if_true, dropWhile_charset _ _ hc]
    simp only [List.cons_append, if_neg h0]
    rw [← List.cons_append, hw, List.drop_left]
    simp

/-- A match of the first pattern decomposes the input into a token, whose
payload is the capture, and the text that follows it. -/
theorem matchEncodedWord_some (name cap after : Str)
    (h : matchEncodedWord name = some (cap, after)) :
    ∃ charset e : Str,
      name = str "=?" ++ charset ++ str "?" ++ e ++ str "?" ++ cap ++ str "?=" ++ after ∧
      (∀ b ∈ charset, isCharsetByte b = true) ∧ IsChar e ∧ LF ∉ cap := by
  rcases name with _ | ⟨b0, _ | ⟨b1, r0⟩⟩
  · simp [matchEncodedWord] at h
  · simp [matchEncodedWord] at h
  simp only [matchEncodedWord] at h
  by_cases h01 : b0 = EQUALS ∧ b1 = QUESTION
  swap
  · rw [if_neg h01] at h; simp at h
  rw [if_pos h01] at h
  obtain ⟨hb0, hb1⟩ := h01
  have hsplit := List.takeWhile_append_dropWhile isCharsetByte r0
  cases hd : r0.dropWhile isCharsetByte with
  | nil => rw [hd] at h; simp at h
  | cons q1 r1 =>
    rw [hd] at h hsplit
    simp only at h
    by_cases hq1 : q1 = QUESTION
    swap
    · rw [if_neg hq1] at h; simp at h
    rw [if_pos hq1] at h
    cases r1 with
    | nil => simp at h
    | cons e0 r1t =>
      simp only at h
      by_cases he0 : e0 = LF
      · rw [if_pos he0] at h; simp at h
      rw [if_neg he0] at h
      have hsplit2 := List.take_append_drop (decodeRuneWidth (e0 :: r1t)) (e0 :: r1t)
      cases hdr : (e0 :: r1t).drop (decodeRuneWidth (e0 :: r1t)) with
      | nil => rw [hdr] at h; simp at h
      | cons q2 r2 =>
        rw [hdr] at h hsplit2
        simp only at h
        by_cases hq2 : q2 = QUESTION
        swap
        · rw [if_neg hq2] at h; simp at h
        rw [if_pos hq2] at h
        obtain ⟨hr2, hcap⟩ := matchPayload_some r2 cap after h
        have hpos := decodeRuneWidth_pos e0 r1t
        have hle := decodeRuneWidth_le_length (e0 :: r1t)
        obtain ⟨e, he⟩ : ∃ e, e = (e0 :: r1t).take (decodeRuneWidth (e0 :: r1t)) := ⟨_, rfl⟩
        rw [← he] at hsplit2
        refine ⟨r0.takeWhile isCharsetByte, e, ?_, ?_, ?_, hcap⟩
        · rw [← hsplit2] at hsplit
          rw [str_eq_question, str_question, str_question_eq, hb0, hb1]
          conv => lhs; rw [← hsplit, hr2, hq1, hq2]
          simp
        · intro b hb
          exact (List.mem_takeWhile_imp hb)
        · rw [he]
          refine ⟨?_, ?_, ?_⟩
          · intro hnil
            have := congrArg List.length hnil
            rw [List.length_take] at this
            simp only [List.length_nil] at this
            omega
          · intro hlf
            obtain ⟨n, hn⟩ : ∃ n, decodeRuneWidth (e0 :: r1t) = n + 1 :=
              ⟨decodeRuneWidth (e0 :: r1t) - 1, by omega⟩
            rw [hn, List.take_succ_cons] at hlf
            exact he0 (List.cons.inj hlf).1
          · rw [decodeRuneWidth_take, List.length_take]
            omega

theorem matchEncodedWord_length (name cap after : Str)
    (h : matchEncodedWord name = some (cap, after)) :
    cap.length + after.length < name.length := by
  obtain ⟨charset, e, hname, -, -, -⟩ := matchEncodedWord_some name cap after h
  rw [hname, str_eq_question, str_question, str_question_eq]
  simp only [List.length_append, List.length_cons, List.length_nil]
  omega

/-- On a match the subject is the capture followed by the text after the
match, with `=XX` turned into `%XX` and then percent-decoded (the empty
string when percent-decoding fails). -/
theorem subject_decode_of_match (name cap after : Str)
    (h : matchEncodedWord name = some (cap, after)) :
    subject_decode name = (PathUnescape (replaceQuotedHex (cap ++ after))).getD [] := by
  have hlen := matchEncodedWord_length name cap after h
  have hne : cap ++ after ≠ name := by
    intro heq
    have := congrArg List.length heq
    rw [List.length_append] at this
    omega
  simp only [subject_decode, replaceEncodedWord, h]
  rw [if_pos hne]

/-- Without a match the subject is returned as it is. -/
theorem subject_decode_of_no_match (name : Str) (h : matchEncodedWord name = none) :
    subject_decode name = name := by
  simp [subject_decode, replaceEncodedWord, h]

theorem token_eq (charset e payload suffix : Str) :
    str "=?" ++ charset ++ str "?" ++ e ++ str "?" ++ payload ++ str "?=" ++ suffix =
      EQUALS :: QUESTION :: (charset ++ QUESTION :: (e ++ QUESTION ::
        (payload ++ QUESTION :: EQUALS :: suffix))) := by
  rw [str_eq_question, str_question, str_question_eq]
  simp

/-- The matcher decides whether the input starts with an encoded-word token. -/
theorem startsWithEncodedWord_iff (name : Str) :
    StartsWithEncodedWord name ↔ (matchEncodedWord name).isSome = true := by
  constructor
  · rintro ⟨charset, e, payload, suffix, hname, hc, he, hp⟩
    rw [hname, token_eq, matchEncodedWord_token _ _ _ hc he]
    exact matchPayload_isSome payload suffix hp
  · intro h
    obtain ⟨⟨cap, after⟩, hm⟩ := Option.isSome_iff_exists.mp h
    obtain ⟨charset, e, hname, hc, he, hp⟩ := matchEncodedWord_some name cap after hm
    exact ⟨charset, e, cap, after, hname, hc, he, hp⟩

/-- After the match of `(.*)\?=` no further `?=` can be reached. -/
theorem matchPayload_after (s cap after : Str) (h : matchPayload s = some (cap, after)) :
    matchPayload after = none := by
  induction s generalizing cap with
  | nil => exact absurd h (by rw [show matchPayload [] = none from rfl]; simp)
  | cons b rest ih =>
    rw [matchPayload_cons] at h
    by_cases hb : b = LF
    · rw [if_pos hb] at h; simp at h
    rw [if_neg hb] at h
    cases hr : matchPayload rest with
    | some r =>
      obtain ⟨c, a⟩ := r
      rw [hr] at h
      simp only [Option.some.injEq, Prod.mk.injEq] at h
      obtain ⟨-, h2⟩ := h
      subst h2
      exact ih c hr
    | none =>
      rw [hr] at h
      simp only at h
      by_cases hq : b = QUESTION
      · rw [if_pos hq] at h
        cases rest with
        | nil => simp at h
        | cons c t =>
          simp only at h
          by_cases hc : c = EQUALS
          · rw [if_pos hc] at h
            simp only [Option.some.injEq, Prod.mk.injEq] at h
            obtain ⟨-, h2⟩ := h
            subst h2 hc
            rw [matchPayload_cons, if_neg (by decide)] at hr
            cases ht : matchPayload t with
            | none => rfl
            | some r => rw [ht] at hr; simp at hr
          · rw [if_neg hc] at h; simp at h
      · rw [if_neg hq] at h; simp at h

/-- When `(.*)\?=` does not match, the text has no `?=` before its first line
feed. -/
theorem matchPayload_none (s : Str) (h : matchPayload s = none) :
    ¬ ∃ p t : Str, s = p ++ str "?=" ++ t ∧ LF ∉ p := by
  rintro ⟨p, t, hs, hp⟩
  have := matchPayload_isSome p t hp
  rw [hs, str_question_eq, List.append_assoc] at h
  simp only [List.cons_append, List.nil_append] at h
  rw [h] at this
  simp at this

/-! ## Lemmas on percent-decoding -/

theorem isUpperHex_ishex (a : Byte) (h : isUpperHex a = true) :
    ishex a = true ∧ unhex a = hexValue a := by
  simp only [isUpperHex, Bool.or_eq_true, Bool.and_eq_true, decide_eq_true_eq] at h
  constructor
  · simp only [ishex, Bool.or_eq_true, Bool.and_eq_true, decide_eq_true_eq]
    omega
  · simp only [unhex, hexValue]
    split_ifs <;> omega

theorem percentWellFormed_cons (c : Byte) (t : Str) (h : c ≠ PERCENT) :
    percentWellFormed (c :: t) = percentWellFormed t := by
  rcases t with _ | ⟨a, _ | ⟨b, rest⟩⟩ <;> simp [percentWellFormed, h]

theorem percentDecode_cons (c : Byte) (t : Str) (h : c ≠ PERCENT) :
    percentDecode (c :: t) = c :: percentDecode t := by
  rcases t with _ | ⟨a, _ | ⟨b, rest⟩⟩ <;> simp [percentDecode, h]

theorem replaceQuotedHex_cons3 (c a b : Byte) (rest : Str) :
    replaceQuotedHex (c :: a :: b :: rest) =
      if c = EQUALS ∧ isUpperHex a = true ∧ isUpperHex b = true then
        PERCENT :: a :: b :: replaceQuotedHex rest
      else c :: replaceQuotedHex (a :: b :: rest) := rfl

theorem decodeQuotedHex_cons3 (c a b : Byte) (rest : Str) :
    decodeQuotedHex (c :: a :: b :: rest) =
      if c = EQUALS ∧ isUpperHex a = true ∧ isUpperHex b = true then
        byte (hexValue a * 16 + hexValue b) :: decodeQuotedHex rest
      else c :: decodeQuotedHex (a :: b :: rest) := rfl

/-- On a text without `%`, the substitution `=XX` to `%XX` followed by
percent-decoding succeeds and decodes exactly the `=XX` sequences. -/
theorem percent_replaceQuotedHex (n : Nat) : ∀ s : Str, s.length ≤ n → PERCENT ∉ s →
    percentWellFormed (replaceQuotedHex s) = true ∧
      percentDecode (replaceQuotedHex s) = decodeQuotedHex s := by
  induction n with
  | zero =>
    intro s hl _
    have : s = [] := List.length_eq_zero.mp (Nat.le_zero.mp hl)
    subst this
    exact ⟨rfl, rfl⟩
  | succ n ih =>
    intro s hl hp
    rcases s with _ | ⟨c, _ | ⟨a, _ | ⟨b, rest⟩⟩⟩
    · exact ⟨rfl, rfl⟩
    · have hc : c ≠ PERCENT := fun h => hp (h ▸ List.mem_cons_self _ _)
      show percentWellFormed [c] = true ∧ percentDecode [c] = [c]
      rw [percentWellFormed_cons _ _ hc, percentDecode_cons _ _ hc]
      exact ⟨rfl, rfl⟩
    · have hc : c ≠ PERCENT := fun h => hp (h ▸ List.mem_cons_self _ _)
      have ha : a ≠ PERCENT := fun h => hp (h ▸ by simp)
      show percentWellFormed [c, a] = true ∧ percentDecode [c, a] = [c, a]
      rw [percentWellFormed_cons _ _ hc, percentDecode_cons _ _ hc,
        percentWellFormed_cons _ _ ha, percentDecode_cons _ _ ha]
      exact ⟨rfl, rfl⟩
    · have hc : c ≠ PERCENT := fun h => hp (h ▸ List.mem_cons_self _ _)
      rw [replaceQuotedHex_cons3, decodeQuotedHex_cons3]
      by_cases hcond : c = EQUALS ∧ isUpperHex a = true ∧ isUpperHex b = true
      · rw [if_pos hcond, if_pos hcond]
        obtain ⟨-, hxa, hxb⟩ := hcond
        obtain ⟨ia, ua⟩ := isUpperHex_ishex a hxa
        obtain ⟨ib, ub⟩ := isUpperHex_ishex b hxb
        have hrest : PERCENT ∉ rest := fun h => hp (by simp [h])
        obtain ⟨w, d⟩ := ih rest (by simp at hl; omega) hrest
        constructor
        · show (ishex a && ishex b && percentWellFormed (replaceQuotedHex rest)) = true
          rw [ia, ib, w]; rfl
        · show byte (unhex a * 16 + unhex b) :: percentDecode (replaceQuotedHex rest) = _
          rw [ua, ub, d]
      · rw [if_neg hcond, if_neg hcond]
        have htl : PERCENT ∉ a :: b :: rest := fun h => hp (List.mem_cons_of_mem _ h)
        obtain ⟨w, d⟩ := ih (a :: b :: rest) (by simp at hl ⊢; omega) htl
        rw [percentWellFormed_cons _ _ hc, percentDecode_cons _ _ hc, w, d]
        exact ⟨rfl, rfl⟩

/-! ## Lemmas on `get_description` -/

theorem str_newline : str "\n" = [LF] := by decide
theorem str_backslash_n : str "\\n" = [byte 92, byte 110] := by decide
theorem html_ne_plain : str "text/html" ≠ str "text/plain" := by decide

/-- The call `strings.Replace(body, "\n", "\\n", -1)` is the escaping of the
specification. -/
theorem stringsReplace_newline (s : Str) :
    stringsReplace s (str "\n") (str "\\n") = escapeNewlines s := by
  have hne : str "\n" ≠ str "\\n" := by decide
  rw [stringsReplace, if_neg hne, str_newline, str_backslash_n]
  induction s with
  | nil => rfl
  | cons c tl ih =>
    by_cases hc : c = LF
    · subst hc
      simp only [stringsReplaceAux, escapeNewlines, List.isPrefixOf, beq_self_eq_true,
        Bool.and_self, if_true, List.length_singleton, Nat.sub_self, ih]
      rfl
    · have hb : (LF == c) = false := by
        simp only [beq_eq_false_iff_ne, ne_eq]
        exact fun h => hc h.symm
      simp only [stringsReplaceAux, escapeNewlines, List.isPrefixOf, hb, Bool.false_and,
        if_neg hc, ih]
      simp

theorem escapeNewlines_no_LF (s : Str) : LF ∉ escapeNewlines s := by
  induction s with
  | nil => simp [escapeNewlines]
  | cons c tl ih =>
    by_cases hc : c = LF
    · simp only [escapeNewlines, if_pos hc, List.mem_cons, not_or]
      exact ⟨by decide, by decide, ih⟩
    · simp only [escapeNewlines, if_neg hc, List.mem_cons, not_or]
      exact ⟨fun h => hc h.symm, ih⟩

theorem escapeNewlines_id (s : Str) (h : LF ∉ s) : escapeNewlines s = s := by
  induction s with
  | nil => rfl
  | cons c tl ih =>
    have hc : c ≠ LF := fun e => h (e ▸ List.mem_cons_self _ _)
    simp only [escapeNewlines, if_neg hc, ih (fun e => h (List.mem_cons_of_mem _ e))]

theorem lastOfType_cons (T : Str) (p : Part) (ps : List Part) :
    lastOfType T (p :: ps) =
      if p.mediaType = T then some ((lastOfType T ps).getD p) else lastOfType T ps := by
  unfold lastOfType
  by_cases h : p.mediaType = T
  · rw [if_pos h, List.filter_cons_of_pos (by simpa using h), List.getLast?_cons]
  · rw [if_neg h, List.filter_cons_of_neg (by simpa using h)]

theorem lastOfType_mem (T : Str) (parts : List Part) (p : Part)
    (h : lastOfType T parts = some p) : p ∈ parts ∧ p.mediaType = T := by
  unfold lastOfType at h
  have hm := List.mem_of_getLast?_eq_some h
  rw [List.mem_filter] at hm
  exact ⟨hm.1, by simpa using hm.2⟩

theorem firstNonEmptyText_cons (f : Str → Str) (p : Part) (ps : List Part) :
    firstNonEmptyText f (p :: ps) =
      if isTextPart p = true ∧ renderedBody f p ≠ [] then renderedBody f p
      else firstNonEmptyText f ps := by
  unfold firstNonEmptyText
  by_cases ht : isTextPart p = true
  · rw [List.filter_cons_of_pos ht, List.map_cons]
    by_cases hb : renderedBody f p = []
    · rw [List.find?_cons_of_neg _ (by simpa using hb), if_neg (by simp [hb])]
    · rw [List.find?_cons_of_pos _ (by simpa using hb), if_pos ⟨ht, hb⟩]
      rfl
  · rw [List.filter_cons_of_neg ht, if_neg (fun h => ht h.1)]

/-- The loop of `get_description` with a renderer that always returns: it ends,
`html` and `plain` hold the text of the last part of their type, and `body`
holds the first non-empty text recorded. -/
theorem visitParts_total (f : Str → Str) (parts : List Part) (st0 : Bodies) :
    ∃ st, visitParts (fun b => some (f b)) parts st0 = some st ∧
      st.html = (match lastOfType (str "text/html") parts with
        | some p => f p.body
        | none => st0.html) ∧
      st.plain = (match lastOfType (str "text/plain") parts with
        | some p => p.body
        | none => st0.plain) ∧
      st.body = (if st0.body ≠ [] then st0.body else firstNonEmptyText f parts) := by
  induction parts generalizing st0 with
  | nil =>
    refine ⟨st0, rfl, rfl, rfl, ?_⟩
    by_cases h : st0.body = []
    · simp [h, firstNonEmptyText]
    · simp [h]
  | cons p ps ih =>
    by_cases hh : p.mediaType = str "text/html"
    · have hp : p.mediaType ≠ str "text/plain" := fun e => html_ne_plain (hh.symm.trans e)
      obtain ⟨st, hv, h1, h2, h3⟩ := ih
        { st0 with html := f p.body, body := if st0.body = [] then f p.body else st0.body }
      refine ⟨st, ?_, ?_, ?_, ?_⟩
      · simp only [visitParts, visitPart, if_pos hh]
        exact hv
      · rw [h1, lastOfType_cons, if_pos hh]
        cases lastOfType (str "text/html") ps <;> rfl
      · rw [h2, lastOfType_cons, if_neg hp]
      · rw [h3, firstNonEmptyText_cons]
        have ht : isTextPart p = true := by simp [isTextPart, hh]
        have hr : renderedBody f p = f p.body := by simp [renderedBody, hh]
        rw [hr]
        by_cases hb : st0.body = []
        · by_cases hf : f p.body = []
          · simp [hb, hf]
          · simp [hb, hf, ht]
        · simp [hb]
    · by_cases hp : p.mediaType = str "text/plain"
      · obtain ⟨st, hv, h1, h2, h3⟩ := ih
          { st0 with plain := p.body, body := if st0.body = [] then p.body else st0.body }
        refine ⟨st, ?_, ?_, ?_, ?_⟩
        · simp only [visitParts, visitPart, if_neg hh, if_pos hp]
          exact hv
        · rw [h1, lastOfType_cons, if_neg hh]
        · rw [h2, lastOfType_cons, if_pos hp]
          cases lastOfType (str "text/plain") ps <;> rfl
        · rw [h3, firstNonEmptyText_cons]
          have ht : isTextPart p = true := by simp [isTextPart, hp]
          have hr : renderedBody f p = p.body := by simp [renderedBody, hh]
          rw [hr]
          by_cases hb : st0.body = []
          · by_cases hf : p.body = []
            · simp [hb, hf]
            · simp [hb, hf, ht]
          · simp [hb]
      · obtain ⟨st, hv, h1, h2, h3⟩ := ih st0
        refine ⟨st, ?_, ?_, ?_, ?_⟩
        · simp only [visitParts, visitPart, if_neg hh, if_neg hp]
          exact hv
        · rw [h1, lastOfType_cons, if_neg hh]
        · rw [h2, lastOfType_cons, if_neg hp]
        · rw [h3, firstNonEmptyText_cons]
          have ht : ¬ (isTextPart p = true ∧ renderedBody f p ≠ []) := by
            simp [isTextPart, hh, hp]
          rw [if_neg ht]

/-- The result of `get_description` with a renderer that always returns, in
terms of the state the loop ends in. -/
theorem get_description_total (f : Str → Str) (typ : Str) (parts : List Part) :
    ∃ st, visitParts (fun b => some (f b)) parts ⟨[], [], []⟩ = some st ∧
      st.html = (match lastOfType (str "text/html") parts with
        | some p => f p.body
        | none => []) ∧
      st.plain = (match lastOfType (str "text/plain") parts with
        | some p => p.body
        | none => []) ∧
      st.body = firstNonEmptyText f parts ∧
      get_description (fun b => some (f b)) typ parts =
        some (escapeNewlines (chooseBody typ st)) := by
  obtain ⟨st, hv, h1, h2, h3⟩ := visitParts_total f parts ⟨[], [], []⟩
  refine ⟨st, hv, h1, h2, by simpa using h3, ?_⟩
  simp only [get_description, hv, stringsReplace_newline]

/-! ## The template -/

set_option maxRecDepth 100000 in
/-- Executing the template of `main` yields the seventeen lines of the
document, with the five values put in as they are. -/
theorem compose_eq (summary dtstamp created description uuid : Str) :
    compose summary dtstamp created description uuid =
      joinLines (docLines summary dtstamp created description uuid) := by
  rfl

/-! ## Lemmas on `get_uuid` -/

theorem ldigits_getD (n : Nat) (h : n < 16) : ldigits.getD n 0 = hexDigit n := by
  interval_cases n <;> decide

theorem fmtHex_cons (c : Byte) (tl : Str) : fmtHex (c :: tl) = hexByte c ++ fmtHex tl := by
  simp only [fmtHex, hexByte, List.cons_append, List.nil_append]
  rw [ldigits_getD _ (by omega), ldigits_getD _ (by omega)]

theorem isLowerHex_hexDigit (n : Nat) (h : n < 16) : isLowerHex (hexDigit n) = true := by
  interval_cases n <;> decide

theorem isLowerHex_hexByte (b c : Byte) (h : c ∈ hexByte b) : isLowerHex c = true := by
  simp only [hexByte, List.mem_cons, List.mem_singleton, List.not_mem_nil, or_false] at h
  rcases h with h | h <;> subst h <;> exact isLowerHex_hexDigit _ (by omega)

theorem ofFn16 (r : Fin 16 → Byte) :
    List.ofFn r = [r 0, r 1, r 2, r 3, r 4, r 5, r 6, r 7, r 8, r 9, r 10, r 11, r 12, r 13,
      r 14, r 15] := rfl

/-- The identifier in terms of the two-digit writing of the sixteen bytes. -/
theorem get_uuid_eq (r : Fin 16 → Byte) :
    get_uuid (some r) = some (
      (hexByte (r 0) ++ hexByte (r 1) ++ hexByte (r 2) ++ hexByte (r 3)) ++ str "-" ++
      (hexByte (r 4) ++ hexByte (r 5)) ++ str "-" ++
      (hexByte (r 6) ++ hexByte (r 7)) ++ str "-" ++
      (hexByte (r 8) ++ hexByte (r 9)) ++ str "-" ++
      (hexByte (r 10) ++ hexByte (r 11) ++ hexByte (r 12) ++ hexByte (r 13) ++
        hexByte (r 14) ++ hexByte (r 15))) := by
  simp only [get_uuid, ofFn16, slice, List.take, List.drop, fmtHex_cons,
    show fmtHex [] = [] from rfl, List.append_nil, List.append_assoc]
  rfl

/-! ## Lemmas on `main` -/

/-- What `main` writes when it reaches the end: the template executed on the
escaped decoded subject, the two formatted times, the description and the
identifier. -/
theorem main_content (opts : Opts) (sys : Sys) (rnd : Option (Fin 16 → Byte)) (now : Time)
    (msg : Message) (file content : Str) (h : main opts sys rnd now msg = some (file, content)) :
    ∃ u d, get_uuid rnd = some u ∧
      get_description (html_to_text opts sys) opts.Typ msg.parts = some d ∧
      file = opts.CalPath ++ str "/" ++ u ++ str ".ics" ∧
      content = compose (EscapeString (subject_decode msg.subject))
        (formatStamp (msg.date.getD zeroTime)) (formatStamp now) d u := by
  unfold main at h
  cases hu : get_uuid rnd with
  | none => rw [hu] at h; simp at h
  | some u =>
    cases hd : get_description (html_to_text opts sys) opts.Typ msg.parts with
    | none => rw [hu, hd] at h; simp at h
    | some d =>
      rw [hu, hd] at h
      simp only [Option.some.injEq, Prod.mk.injEq] at h
      exact ⟨u, d, rfl, rfl, h.1.symm, h.2.symm⟩

theorem splitLines_of_no_LF (l : Str) (h : LF ∉ l) : splitLines l = [l] := by
  induction l with
  | nil => rfl
  | cons c tl ih =>
    have hc : c ≠ LF := fun e => h (e ▸ List.mem_cons_self _ _)
    simp only [splitLines, if_neg hc, ih (fun e => h (List.mem_cons_of_mem _ e))]

theorem splitLines_append (l rest : Str) (h : LF ∉ l) :
    splitLines (l ++ LF :: rest) = l :: splitLines rest := by
  induction l with
  | nil => simp [splitLines]
  | cons c tl ih =>
    have hc : c ≠ LF := fun e => h (e ▸ List.mem_cons_self _ _)
    rw [List.cons_append]
    show (if c = LF then [] :: splitLines (tl ++ LF :: rest)
      else
        match splitLines (tl ++ LF :: rest) with
        | [] => [[c]]
        | l :: ls => (c :: l) :: ls) = _
    rw [if_neg hc, ih (fun e => h (List.mem_cons_of_mem _ e))]

/-- Lines without line feed are recovered from their joined text. -/
theorem splitLines_joinLines (l : Str) (ls : List Str) (h : ∀ x ∈ l :: ls, LF ∉ x) :
    splitLines (joinLines (l :: ls)) = l :: ls := by
  induction ls generalizing l with
  | nil => exact splitLines_of_no_LF l (h l (List.mem_cons_self _ _))
  | cons m ms ih =>
    have hl := h l (List.mem_cons_self _ _)
    have : joinLines (l :: m :: ms) = l ++ LF :: joinLines (m :: ms) := rfl
    rw [this, splitLines_append _ _ hl, ih m (fun x hx => h x (List.mem_cons_of_mem _ hx))]

theorem decimalAux_bytes (fuel n : Nat) (acc : Str) :
    ∀ c ∈ decimalAux fuel n acc, c ∈ acc ∨ (48 ≤ c.val ∧ c.val ≤ 57) := by
  induction fuel generalizing n acc with
  | zero => intro c hc; exact Or.inl hc
  | succ fuel ih =>
    intro c hc
    simp only [decimalAux] at hc
    split_ifs at hc with hn
    · rcases List.mem_cons.mp hc with h | h
      · right; subst h; simp only [byte]; omega
      · exact Or.inl h
    · rcases ih _ _ c hc with h | h
      · rcases List.mem_cons.mp h with h | h
        · right; subst h; simp only [byte]; omega
        · exact Or.inl h
      · exact Or.inr h

theorem appendInt_bytes (x : Int) (width : Nat) :
    ∀ c ∈ appendInt x width, c.val = 45 ∨ (48 ≤ c.val ∧ c.val ≤ 57) := by
  intro c hc
  simp only [appendInt, List.mem_append] at hc
  rcases hc with (hc | hc) | hc
  · split_ifs at hc
    · left
      have : str "-" = [byte 45] := by decide
      rw [this] at hc
      simp only [List.mem_singleton] at hc
      subst hc; rfl
    · simp at hc
  · right
    have := List.eq_of_mem_replicate hc
    subst this
    exact ⟨by decide, by decide⟩
  · right
    rcases decimalAux_bytes _ _ _ c hc with h | h
    · simp at h
    · exact h

theorem formatStamp_no_LF (t : Time) : LF ∉ formatStamp t := by
  intro h
  have hT : str "T" = [byte 84] := by decide
  have hZ : str "Z" = [byte 90] := by decide
  simp only [formatStamp, List.mem_append, hT, hZ, List.mem_singleton] at h
  have key : ∀ x w, LF ∉ appendInt x w := by
    intro x w hm
    exact absurd (appendInt_bytes x w LF hm) (by decide)
  rcases h with (((((((h | h) | h) | h) | h) | h) | h) | h)
  all_goals first
    | exact key _ _ h
    | exact absurd h (by decide)

theorem get_description_no_LF (render : Str → Option Str) (typ : Str) (parts : List Part)
    (d : Str) (h : get_description render typ parts = some d) : LF ∉ d := by
  unfold get_description at h
  cases hv : visitParts render parts ⟨[], [], []⟩ with
  | none => rw [hv] at h; simp at h
  | some st =>
    rw [hv] at h
    simp only [Option.some.injEq] at h
    rw [← h, stringsReplace_newline]
    exact escapeNewlines_no_LF _

theorem hexByte_no_LF (b : Byte) : LF ∉ hexByte b := by
  intro h
  have := isLowerHex_hexByte b LF h
  exact absurd this (by decide)

theorem get_uuid_no_LF (rnd : Option (Fin 16 → Byte)) (u : Str) (h : get_uuid rnd = some u) :
    LF ∉ u := by
  cases rnd with
  | none => simp [get_uuid] at h
  | some r =>
    rw [get_uuid_eq] at h
    simp only [Option.some.injEq] at h
    intro hmem
    have hs : str "-" = [byte 45] := by decide
    rw [← h] at hmem
    simp only [hs, List.mem_append, List.mem_singleton] at hmem
    repeat' (first
      | exact absurd hmem (by decide)
      | exact hexByte_no_LF _ hmem
      | (rcases hmem with hmem | hmem))

set_option maxRecDepth 100000 in
theorem docLines_no_LF (summary dtstamp created description uuid : Str)
    (h1 : LF ∉ summary) (h2 : LF ∉ dtstamp) (h3 : LF ∉ created) (h4 : LF ∉ description)
    (h5 : LF ∉ uuid) :
    ∀ x ∈ docLines summary dtstamp created description uuid, LF ∉ x := by
  intro x hx
  simp only [docLines, List.mem_cons, List.mem_singleton, List.not_mem_nil, or_false] at hx
  have app : ∀ (a b : Str), LF ∉ a → LF ∉ b → LF ∉ a ++ b := by
    intro a b ha hb hm
    rcases List.mem_append.mp hm with h | h
    · exact ha h
    · exact hb h
  rcases hx with h | h | h | h | h | h | h | h | h | h | h | h | h | h | h | h | h <;> subst h
  all_goals first
    | decide
    | exact app _ _ (by decide) (by assumption)

set_option maxRecDepth 100000 in
theorem docLines_count (summary dtstamp created description uuid : Str) :
    (docLines summary dtstamp created description uuid).count (str "BEGIN:VTODO") = 1 ∧
    (docLines summary dtstamp created description uuid).count (str "END:VTODO") = 1 ∧
    (docLines summary dtstamp created description uuid).filter
      (fun l => startsWith (str "UID:") l) = [str "UID:" ++ uuid] := by
  refine ⟨rfl, rfl, rfl⟩

/-- When the escaped decoded subject holds no line feed, the document `main`
writes has exactly one line `BEGIN:VTODO`, exactly one line `END:VTODO` and
exactly one line that starts with `UID:`, which carries the identifier. -/
theorem main_lines_of_summary (opts : Opts) (sys : Sys) (rnd : Option (Fin 16 → Byte))
    (now : Time) (msg : Message) (file content : Str)
    (h : main opts sys rnd now msg = some (file, content))
    (hs : LF ∉ EscapeString (subject_decode msg.subject)) :
    ∃ u, get_uuid rnd = some u ∧
      (splitLines content).count (str "BEGIN:VTODO") = 1 ∧
      (splitLines content).count (str "END:VTODO") = 1 ∧
      (splitLines content).filter (fun l => startsWith (str "UID:") l) = [str "UID:" ++ u] := by
  obtain ⟨u, d, hu, hd, -, hc⟩ := main_content opts sys rnd now msg file content h
  refine ⟨u, hu, ?_⟩
  have hl := docLines_no_LF _ _ _ _ _ hs (formatStamp_no_LF (msg.date.getD zeroTime))
    (formatStamp_no_LF now) (get_description_no_LF _ _ _ d hd) (get_uuid_no_LF rnd u hu)
  rw [hc, compose_eq]
  have hsplit := splitLines_joinLines _ _ hl
  rw [show joinLines (docLines (EscapeString (subject_decode msg.subject))
      (formatStamp (msg.date.getD zeroTime)) (formatStamp now) d u) = joinLines (_ :: _) from rfl,
    hsplit]
  exact docLines_count _ _ _ _ _

theorem EscapeString_no_LF (s : Str) (h : LF ∉ s) : LF ∉ EscapeString s := by
  induction s with
  | nil => simp [EscapeString]
  | cons c tl ih =>
    have hc : c ≠ LF := fun e => h (e ▸ List.mem_cons_self _ _)
    have ht := ih (fun e => h (List.mem_cons_of_mem _ e))
    simp only [EscapeString, List.mem_append, not_or]
    refine ⟨?_, ht⟩
    split_ifs
    · decide
    · decide
    · decide
    · decide
    · decide
    · simp only [List.mem_singleton]
      exact fun e => hc e.symm

/-- A subject without line feed that does not start with an encoded-word token
gives a Summary without line feed. -/
theorem summary_no_LF_of_plain (name : Str) (h : ¬ StartsWithEncodedWord name)
    (hl : LF ∉ name) : LF ∉ EscapeString (subject_decode name) := by
  have hnone : matchEncodedWord name = none := by
    cases hm : matchEncodedWord name with
    | none => rfl
    | some r => exact absurd ((startsWithEncodedWord_iff name).mpr (by rw [hm]; rfl)) h
  rw [subject_decode_of_no_match name hnone]
  exact EscapeString_no_LF name hl

/-! ## Lemmas on `formatStamp` -/

theorem decimalAux_succ (fuel n : Nat) (acc : Str) :
    decimalAux (fuel + 1) n acc =
      if n < 10 then byte (48 + n) :: acc
      else decimalAux fuel (n / 10) (byte (48 + n % 10) :: acc) := rfl

theorem decimalAux_one (fuel n : Nat) (acc : Str) (hf : 1 ≤ fuel) (hn : n < 10) :
    decimalAux fuel n acc = digit n :: acc := by
  obtain ⟨k, rfl⟩ : ∃ k, fuel = k + 1 := ⟨fuel - 1, by omega⟩
  rw [decimalAux_succ, if_pos hn]
  rfl

theorem decimalAux_two (fuel n : Nat) (acc : Str) (hf : 2 ≤ fuel) (h1 : 10 ≤ n)
    (h2 : n < 100) : decimalAux fuel n acc = digit (n / 10) :: digit (n % 10) :: acc := by
  obtain ⟨k, rfl⟩ : ∃ k, fuel = k + 1 := ⟨fuel - 1, by omega⟩
  rw [decimalAux_succ, if_neg (by omega), decimalAux_one k _ _ (by omega) (by omega)]
  rfl

theorem decimalAux_three (fuel n : Nat) (acc : Str) (hf : 3 ≤ fuel) (h1 : 100 ≤ n)
    (h2 : n < 1000) :
    decimalAux fuel n acc = digit (n / 100) :: digit (n / 10 % 10) :: digit (n % 10) :: acc := by
  obtain ⟨k, rfl⟩ : ∃ k, fuel = k + 1 := ⟨fuel - 1, by omega⟩
  rw [decimalAux_succ, if_neg (by omega),
    decimalAux_two k _ _ (by omega) (by omega) (by omega)]
  have : n / 10 / 10 = n / 100 := by omega
  rw [this]
  rfl

theorem decimalAux_four (fuel n : Nat) (acc : Str) (hf : 4 ≤ fuel) (h1 : 1000 ≤ n)
    (h2 : n < 10000) :
    decimalAux fuel n acc =
      digit (n / 1000) :: digit (n / 100 % 10) :: digit (n / 10 % 10) :: digit (n % 10) :: acc := by
  obtain ⟨k, rfl⟩ : ∃ k, fuel = k + 1 := ⟨fuel - 1, by omega⟩
  rw [decimalAux_succ, if_neg (by omega),
    decimalAux_three k _ _ (by omega) (by omega) (by omega)]
  have e1 : n / 10 / 100 = n / 1000 := by omega
  have e2 : n / 10 / 10 % 10 = n / 100 % 10 := by omega
  rw [e1, e2]
  rfl

theorem appendInt_natCast (n width : Nat) :
    appendInt (n : Int) width =
      List.replicate (width - (decimal n).length) (byte 48) ++ decimal n := by
  have hneg : ¬ ((n : Int) < 0) := by omega
  simp only [appendInt, Int.natAbs_ofNat, if_neg hneg, List.nil_append]

/-- A number below 100 is written by `appendInt` with two digits. -/
theorem appendInt_pad2 (n : Nat) (h : n < 100) : appendInt (n : Int) 2 = pad2 n := by
  rw [appendInt_natCast]
  by_cases h10 : n < 10
  · have hd : decimal n = [digit n] := decimalAux_one _ _ _ (by omega) h10
    have e1 : n / 10 = 0 := by omega
    have e2 : n % 10 = n := by omega
    rw [hd, pad2, e1, e2]
    rfl
  · have hd : decimal n = [digit (n / 10), digit (n % 10)] :=
      decimalAux_two _ _ _ (by omega) (by omega) h
    rw [hd, pad2]
    rfl

/-- A number below 10000 is written by `appendInt` with four digits. -/
theorem appendInt_pad4 (n : Nat) (h : n < 10000) : appendInt (n : Int) 4 = pad4 n := by
  rw [appendInt_natCast]
  by_cases h10 : n < 10
  · have hd : decimal n = [digit n] := decimalAux_one _ _ _ (by omega) h10
    have e1 : n / 1000 = 0 := by omega
    have e2 : n / 100 % 10 = 0 := by omega
    have e3 : n / 10 % 10 = 0 := by omega
    have e4 : n % 10 = n := by omega
    rw [hd, pad4, e1, e2, e3, e4]
    rfl
  by_cases h100 : n < 100
  · have hd : decimal n = [digit (n / 10), digit (n % 10)] :=
      decimalAux_two _ _ _ (by omega) (by omega) h100
    have e1 : n / 1000 = 0 := by omega
    have e2 : n / 100 % 10 = 0 := by omega
    have e3 : n / 10 % 10 = n / 10 := by omega
    rw [hd, pad4, e1, e2, e3]
    rfl
  by_cases h1000 : n < 1000
  · have hd : decimal n = [digit (n / 100), digit (n / 10 % 10), digit (n % 10)] :=
      decimalAux_three _ _ _ (by omega) (by omega) h1000
    have e1 : n / 1000 = 0 := by omega
    have e2 : n / 100 % 10 = n / 100 := by omega
    rw [hd, pad4, e1, e2]
    rfl
  · have hd : decimal n =
        [digit (n / 1000), digit (n / 100 % 10), digit (n / 10 % 10), digit (n % 10)] :=
      decimalAux_four _ _ _ (by omega) (by omega) h
    rw [hd, pad4]
    rfl

/-- The stamp of a time with a year from 0 to 9999, field by field. -/
theorem formatStamp_eq (t : Time) (hv : t.Valid) (h0 : 0 ≤ t.year) (h1 : t.year ≤ 9999) :
    formatStamp t =
      pad4 t.year.toNat ++ pad2 t.month ++ pad2 t.day ++ str "T" ++
        pad2 t.hour ++ pad2 t.minute ++ pad2 t.second ++ str "Z" := by
  obtain ⟨-, hm, -, hd, hh, hmi, hs⟩ := hv
  have hy : t.year = ((t.year.toNat : Nat) : Int) := (Int.toNat_of_nonneg h0).symm
  have hy2 : t.year.toNat < 10000 := by omega
  unfold formatStamp
  rw [appendInt_pad2 _ (by omega), appendInt_pad2 _ (by omega), appendInt_pad2 _ (by omega),
    appendInt_pad2 _ (by omega), appendInt_pad2 _ (by omega)]
  conv => lhs; rw [hy]
  rw [appendInt_pad4 _ hy2]

theorem digit_inj (a b : Nat) (ha : a < 10) (hb : b < 10) (h : digit a = digit b) : a = b := by
  have := congrArg Fin.val h
  simp only [digit, byte] at this
  omega

theorem pad2_inj (a b : Nat) (ha : a < 100) (hb : b < 100) (h : pad2 a = pad2 b) : a = b := by
  simp only [pad2, List.cons.injEq, and_true] at h
  have h1 := digit_inj _ _ (by omega) (by omega) h.1
  have h2 := digit_inj _ _ (by omega) (by omega) h.2
  omega

theorem pad4_inj (a b : Nat) (ha : a < 10000) (hb : b < 10000) (h : pad4 a = pad4 b) :
    a = b := by
  simp only [pad4, List.cons.injEq, and_true] at h
  have h1 := digit_inj _ _ (by omega) (by omega) h.1
  have h2 := digit_inj _ _ (by omega) (by omega) h.2.1
  have h3 := digit_inj _ _ (by omega) (by omega) h.2.2.1
  have h4 := digit_inj _ _ (by omega) (by omega) h.2.2.2
  omega

theorem decimalAux_append (fuel n : Nat) (acc : Str) :
    decimalAux fuel n acc = decimalAux fuel n [] ++ acc := by
  induction fuel generalizing n acc with
  | zero => rfl
  | succ fuel ih =>
    rw [decimalAux_succ, decimalAux_succ]
    by_cases hn : n < 10
    · rw [if_pos hn, if_pos hn]; rfl
    · rw [if_neg hn, if_neg hn, ih (n / 10) (byte (48 + n % 10) :: acc),
        ih (n / 10) [byte (48 + n % 10)], List.append_assoc]
      rfl

theorem decimalValue_decimalAux (fuel n : Nat) (h : n < fuel) :
    decimalValue (decimalAux fuel n []) = n := by
  induction fuel generalizing n with
  | zero => omega
  | succ fuel ih =>
    rw [decimalAux_succ]
    by_cases hn : n < 10
    · rw [if_pos hn]
      simp only [decimalValue, List.foldl_cons, List.foldl_nil, byte]
      omega
    · rw [if_neg hn, decimalAux_append]
      have hi := ih (n / 10) (by omega)
      simp only [decimalValue, List.foldl_append, List.foldl_cons, List.foldl_nil, byte] at hi ⊢
      rw [hi]
      omega

theorem decimalValue_zeros (k : Nat) (s : Str) :
    decimalValue (List.replicate k (byte 48) ++ s) = decimalValue s := by
  induction k with
  | zero => rfl
  | succ k ih =>
    simp only [decimalValue, List.replicate_succ, List.cons_append, List.foldl_cons] at ih ⊢
    exact ih

/-- The zero padding and the digits `appendInt` writes after the sign. -/
theorem appendInt_split (x : Int) (width : Nat) :
    appendInt x width = (if x < 0 then [byte 45] else []) ++
      (List.replicate (width - (decimal x.natAbs).length) (byte 48) ++ decimal x.natAbs) := by
  have hs : str "-" = [byte 45] := by decide
  simp only [appendInt, hs, List.append_assoc]

theorem appendInt_body_value (n width : Nat) :
    decimalValue (List.replicate (width - (decimal n).length) (byte 48) ++ decimal n) = n := by
  rw [decimalValue_zeros]
  exact decimalValue_decimalAux (n + 1) n (by omega)

theorem appendInt_body_bytes (n width : Nat) :
    ∀ c ∈ List.replicate (width - (decimal n).length) (byte 48) ++ decimal n,
      48 ≤ c.val ∧ c.val ≤ 57 := by
  intro c hc
  rcases List.mem_append.mp hc with h | h
  · have := List.eq_of_mem_replicate h
    subst this
    exact ⟨by decide, by decide⟩
  · rcases decimalAux_bytes _ _ _ c h with h | h
    · simp at h
    · exact h

/-- The writing of a number by `appendInt` determines the number. -/
theorem appendInt_inj (x y : Int) (width : Nat) (h : appendInt x width = appendInt y width) :
    x = y := by
  rw [appendInt_split, appendInt_split] at h
  have vx := appendInt_body_value x.natAbs width
  have vy := appendInt_body_value y.natAbs width
  by_cases hx : x < 0
  · by_cases hy : y < 0
    · rw [if_pos hx, if_pos hy] at h
      have hb := List.append_cancel_left h
      rw [hb, vy] at vx
      omega
    · rw [if_pos hx, if_neg hy, List.nil_append] at h
      have hm := appendInt_body_bytes y.natAbs width (byte 45) (by rw [← h]; simp)
      exact absurd hm.1 (by decide)
  · by_cases hy : y < 0
    · rw [if_neg hx, if_pos hy, List.nil_append] at h
      have hm := appendInt_body_bytes x.natAbs width (byte 45) (by rw [h]; simp)
      exact absurd hm.1 (by decide)
    · rw [if_neg hx, if_neg hy] at h
      have hb := List.append_cancel_left h
      rw [hb, vy] at vx
      omega

/-- Two valid times with the same stamp show the same date and clock time. -/
theorem formatStamp_inj (t1 t2 : Time) (hv1 : t1.Valid) (hv2 : t2.Valid)
    (h : formatStamp t1 = formatStamp t2) :
    t1.year = t2.year ∧ t1.month = t2.month ∧ t1.day = t2.day ∧ t1.hour = t2.hour ∧
      t1.minute = t2.minute ∧ t1.second = t2.second := by
  obtain ⟨-, hm1, -, hd1, hh1, hmi1, hs1⟩ := hv1
  obtain ⟨-, hm2, -, hd2, hh2, hmi2, hs2⟩ := hv2
  unfold formatStamp at h
  rw [appendInt_pad2 t1.month (by omega), appendInt_pad2 t1.day (by omega),
    appendInt_pad2 t1.hour (by omega), appendInt_pad2 t1.minute (by omega),
    appendInt_pad2 t1.second (by omega), appendInt_pad2 t2.month (by omega),
    appendInt_pad2 t2.day (by omega), appendInt_pad2 t2.hour (by omega),
    appendInt_pad2 t2.minute (by omega), appendInt_pad2 t2.second (by omega)] at h
  have hlen2 : ∀ n, (pad2 n).length = 2 := fun _ => rfl
  simp only [List.append_assoc] at h
  obtain ⟨e1, h⟩ := List.append_inj' h rfl
  obtain ⟨e2, h⟩ := List.append_inj h (by rw [hlen2, hlen2])
  obtain ⟨e3, h⟩ := List.append_inj h (by rw [hlen2, hlen2])
  obtain ⟨-, h⟩ := List.append_inj h rfl
  obtain ⟨e4, h⟩ := List.append_inj h (by rw [hlen2, hlen2])
  obtain ⟨e5, h⟩ := List.append_inj h (by rw [hlen2, hlen2])
  obtain ⟨e6, -⟩ := List.append_inj h (by rw [hlen2, hlen2])
  exact ⟨appendInt_inj _ _ 4 e1, pad2_inj _ _ (by omega) (by omega) e2,
    pad2_inj _ _ (by omega) (by omega) e3, pad2_inj _ _ (by omega) (by omega) e4,
    pad2_inj _ _ (by omega) (by omega) e5, pad2_inj _ _ (by omega) (by omega) e6⟩

/-! ## The stamp lines of the document -/

/-- Leading lines without line feed are recovered from the joined text,
whatever the later lines hold. -/
theorem splitLines_joinLines_prefix (pre rest : List Str) (h : ∀ x ∈ pre, LF ∉ x)
    (hr : rest ≠ []) :
    splitLines (joinLines (pre ++ rest)) = pre ++ splitLines (joinLines rest) := by
  induction pre with
  | nil => rfl
  | cons l pre ih =>
    have hl := h l (List.mem_cons_self _ _)
    have ih1 := ih (fun x hx => h x (List.mem_cons_of_mem _ hx))
    cases hpr : pre ++ rest with
    | nil =>
      have := (List.append_eq_nil.mp hpr).2
      exact absurd this hr
    | cons m ms =>
      rw [hpr] at ih1
      rw [List.cons_append, hpr]
      have e : joinLines (l :: m :: ms) = l ++ LF :: joinLines (m :: ms) := rfl
      rw [e, splitLines_append _ _ hl, ih1]
      rfl

set_option maxRecDepth 100000 in
/-- The first eight lines of the document `main` writes: the CREATED and
LAST-MODIFIED lines carry the stamp of the current time and the DTSTAMP line
the stamp of the value `msg.Header.Date()` returned, each passed to `Format`
as it is, in its own zone. -/
theorem main_stamp_lines (opts : Opts) (sys : Sys) (rnd : Option (Fin 16 → Byte)) (now : Time)
    (msg : Message) (file content : Str)
    (h : main opts sys rnd now msg = some (file, content)) :
    ∃ (d : Str) (tail : List Str),
      get_description (html_to_text opts sys) opts.Typ msg.parts = some d ∧
      splitLines content =
        [str "BEGIN:VCALENDAR",
         str "VERSION:2.0",
         str "PRODID:-//Nextcloud Tasks vundefined",
         str "BEGIN:VTODO",
         str "CREATED;VALUE=DATE-TIME:" ++ formatStamp now,
         str "DESCRIPTION:" ++ d,
         str "DTSTAMP;VALUE=DATE-TIME:" ++ formatStamp (msg.date.getD zeroTime),
         str "LAST-MODIFIED;VALUE=DATE-TIME:" ++ formatStamp now] ++ tail := by
  obtain ⟨u, d, -, hd, -, hc⟩ := main_content opts sys rnd now msg file content h
  have app : ∀ (a b : Str), LF ∉ a → LF ∉ b → LF ∉ a ++ b := by
    intro a b ha hb hm
    rcases List.mem_append.mp hm with h | h
    · exact ha h
    · exact hb h
  have hnow := formatStamp_no_LF now
  have hdate := formatStamp_no_LF (msg.date.getD zeroTime)
  have hdesc := get_description_no_LF _ _ _ d hd
  have hpre : ∀ x ∈ ([str "BEGIN:VCALENDAR",
         str "VERSION:2.0",
         str "PRODID:-//Nextcloud Tasks vundefined",
         str "BEGIN:VTODO",
         str "CREATED;VALUE=DATE-TIME:" ++ formatStamp now,
         str "DESCRIPTION:" ++ d,
         str "DTSTAMP;VALUE=DATE-TIME:" ++ formatStamp (msg.date.getD zeroTime),
         str "LAST-MODIFIED;VALUE=DATE-TIME:" ++ formatStamp now] : List Str), LF ∉ x := by
    intro x hx
    simp only [List.mem_cons, List.mem_singleton, List.not_mem_nil, or_false] at hx
    rcases hx with h | h | h | h | h | h | h | h <;> subst h
    all_goals first
      | decide
      | exact app _ _ (by decide) (by assumption)
  have hs := splitLines_joinLines_prefix _
    [str "PERCENT-COMPLETE:0", str "PRIORITY:0", str "SEQUENCE:6", str "STATUS:NEEDS-ACTION",
     str "SUMMARY:" ++ EscapeString (subject_decode msg.subject), str "UID:" ++ u,
     str "X-OC-HIDESUBTASKS:0", str "END:VTODO", str "END:VCALENDAR"] hpre (by simp)
  refine ⟨d, splitLines (joinLines
    [str "PERCENT-COMPLETE:0", str "PRIORITY:0", str "SEQUENCE:6", str "STATUS:NEEDS-ACTION",
     str "SUMMARY:" ++ EscapeString (subject_decode msg.subject), str "UID:" ++ u,
     str "X-OC-HIDESUBTASKS:0", str "END:VTODO", str "END:VCALENDAR"]), hd, ?_⟩
  rw [hc, compose_eq]
  exact hs

/-- The DTSTAMP line, the seventh line of the document `main` writes, is the
stamp of the value `msg.Header.Date()` returned, in its own zone. -/
theorem main_dtstamp_line (opts : Opts) (sys : Sys) (rnd : Option (Fin 16 → Byte)) (now : Time)
    (msg : Message) (file content : Str)
    (h : main opts sys rnd now msg = some (file, content)) :
    (splitLines content)[6]? =
      some (str "DTSTAMP;VALUE=DATE-TIME:" ++ formatStamp (msg.date.getD zeroTime)) := by
  obtain ⟨d, tail, -, hs⟩ := main_stamp_lines opts sys rnd now msg file content h
  rw [hs]
  rfl

/-- Two valid times that denote the same instant with different zone offsets
have different stamps. -/
theorem formatStamp_ne_of_instant (t1 t2 : Time) (hv1 : t1.Valid) (hv2 : t2.Valid)
    (hi : instant t1 = instant t2) (ho : t1.offset ≠ t2.offset) :
    formatStamp t1 ≠ formatStamp t2 := by
  intro hf
  obtain ⟨e1, e2, e3, e4, e5, e6⟩ := formatStamp_inj t1 t2 hv1 hv2 hf
  apply ho
  simp only [instant, wallSeconds, e1, e2, e3, e4, e5, e6] at hi
  omega

/-! ## Claims on `subject_decode` -/

/-- C1: `subject_decode` on `=?UTF-8?Q?Hello=20World?=` returns `Hello World`;
and for every subject `=?<charset>?<e>?<payload>?=` with `<charset>` made of
bytes of `[A-Za-z0-9_-]`, `<e>` one character other than a line feed and
`<payload>` without `%`, without line feed and without `?=`, the result is
`<payload>` with every `=XX` (uppercase hex digits, scanned left to right
without overlap) replaced by the byte of value `XX`, all else unchanged. -/
theorem subject_decode_encoded_word :
    subject_decode (str "=?UTF-8?Q?Hello=20World?=") = str "Hello World" ∧
    ∀ charset e payload : Str,
      (∀ b ∈ charset, isCharsetByte b = true) → IsChar e →
      PERCENT ∉ payload → LF ∉ payload → ¬ (str "?=" <:+: payload) →
      subject_decode (str "=?" ++ charset ++ str "?" ++ e ++ str "?" ++ payload ++ str "?=")
        = decodeQuotedHex payload := by
  refine ⟨by decide, ?_⟩
  intro charset e payload hc he hpct hlf _
  have hm : matchEncodedWord
      (str "=?" ++ charset ++ str "?" ++ e ++ str "?" ++ payload ++ str "?=")
        = some (payload, []) := by
    have h := token_eq charset e payload []
    rw [List.append_nil] at h
    rw [h, matchEncodedWord_token _ _ _ hc he]
    exact matchPayload_append payload [] hlf rfl
  rw [subject_decode_of_match _ _ _ hm, List.append_nil]
  obtain ⟨w, d⟩ := percent_replaceQuotedHex payload.length payload (Nat.le_refl _) hpct
  simp [PathUnescape, w, d]

set_option maxRecDepth 10000 in
/-- Witness of C1: the token `=?utf-8?q?A=2FB=3?=`, whose payload holds one
`=XX` sequence and one `=` that starts none. -/
theorem subject_decode_encoded_word_witness :
    subject_decode (str "=?" ++ str "utf-8" ++ str "?" ++ str "q" ++ str "?" ++
      str "A=2FB=3" ++ str "?=") = str "A/B=3" := by
  have h := subject_decode_encoded_word.2 (str "utf-8") (str "q") (str "A=2FB=3")
    (by decide) (by decide) (by decide) (by decide) (by decide)
  rw [h]
  decide

/-- C2: an input that does not start with an encoded-word token is returned
unchanged, also when it contains `=XX` or `%XX` sequences. -/
theorem subject_decode_plain (name : Str) (h : ¬ StartsWithEncodedWord name) :
    subject_decode name = name := by
  have hnone : matchEncodedWord name = none := by
    cases hm : matchEncodedWord name with
    | none => rfl
    | some r => exact absurd ((startsWithEncodedWord_iff name).mpr (by rw [hm]; rfl)) h
  exact subject_decode_of_no_match name hnone

/-- Witness of C2: a subject with `=41`, `%41` and a token that is not at the
start. -/
theorem subject_decode_plain_witness :
    subject_decode (str "Re: a=41 %41 =?UTF-8?Q?b=20c?=") =
      str "Re: a=41 %41 =?UTF-8?Q?b=20c?=" :=
  subject_decode_plain (str "Re: a=41 %41 =?UTF-8?Q?b=20c?=")
    (fun h => absurd ((startsWithEncodedWord_iff _).mp h) (by decide))

/-- C8, as stated, fails: on `=?UTF-8?Q?Hi?= there` the pattern matches with
payload `Hi`, the text ` there` that follows the closing `?=` stays in the
string after step 1 and in the result, which is not the decoding of the
payload alone. -/
theorem subject_decode_trailing_text_counterexample :
    matchEncodedWord (str "=?UTF-8?Q?Hi?= there") = some (str "Hi", str " there") ∧
    replaceEncodedWord (str "=?UTF-8?Q?Hi?= there") = str "Hi there" ∧
    replaceEncodedWord (str "=?UTF-8?Q?Hi?= there") ≠ str "Hi" ∧
    subject_decode (str "=?UTF-8?Q?Hi?= there") = str "Hi there" ∧
    subject_decode (str "=?UTF-8?Q?Hi?= there") ≠
      (PathUnescape (replaceQuotedHex (str "Hi"))).getD [] := by
  decide

/-- C8, amended: for every input that starts with an encoded-word token, step 1
replaces the token, which runs up to the last `?=` that no line feed precedes,
by the captured payload and keeps the text that follows the token; the result
is the decoding (`=XX` to `%XX`, then percent-decoding, empty on a
percent-decoding error) of the payload followed by that text. -/
theorem subject_decode_token_replaced (name : Str) (h : StartsWithEncodedWord name) :
    ∃ charset e payload suffix : Str,
      name = str "=?" ++ charset ++ str "?" ++ e ++ str "?" ++ payload ++ str "?=" ++ suffix ∧
      (∀ b ∈ charset, isCharsetByte b = true) ∧ IsChar e ∧ LF ∉ payload ∧
      (¬ ∃ p t : Str, suffix = p ++ str "?=" ++ t ∧ LF ∉ p) ∧
      replaceEncodedWord name = payload ++ suffix ∧
      subject_decode name = (PathUnescape (replaceQuotedHex (payload ++ suffix))).getD [] := by
  obtain ⟨⟨cap, after⟩, hm⟩ := Option.isSome_iff_exists.mp ((startsWithEncodedWord_iff name).mp h)
  obtain ⟨charset, e, hname, hc, he, hp⟩ := matchEncodedWord_some name cap after hm
  refine ⟨charset, e, cap, after, hname, hc, he, hp, ?_, ?_,
    subject_decode_of_match name cap after hm⟩
  · have hm2 := hm
    rw [hname, token_eq, matchEncodedWord_token _ _ _ hc he] at hm2
    exact matchPayload_none after (matchPayload_after _ cap after hm2)
  · simp [replaceEncodedWord, hm]

/-- Witness of C8 (amended): the subject `=?UTF-8?Q?Hi?= there`. -/
theorem subject_decode_token_replaced_witness :
    ∃ charset e payload suffix : Str,
      str "=?UTF-8?Q?Hi?= there" =
        str "=?" ++ charset ++ str "?" ++ e ++ str "?" ++ payload ++ str "?=" ++ suffix ∧
      (∀ b ∈ charset, isCharsetByte b = true) ∧ IsChar e ∧ LF ∉ payload ∧
      (¬ ∃ p t : Str, suffix = p ++ str "?=" ++ t ∧ LF ∉ p) ∧
      replaceEncodedWord (str "=?UTF-8?Q?Hi?= there") = payload ++ suffix ∧
      subject_decode (str "=?UTF-8?Q?Hi?= there") =
        (PathUnescape (replaceQuotedHex (payload ++ suffix))).getD [] :=
  subject_decode_token_replaced (str "=?UTF-8?Q?Hi?= there")
    ((startsWithEncodedWord_iff _).mpr (by decide))

/-! ## Claims on `get_description` -/

theorem lastOfType_none (T : Str) (parts : List Part) (h : ∀ p ∈ parts, p.mediaType ≠ T) :
    lastOfType T parts = none := by
  unfold lastOfType
  have : parts.filter (fun p => decide (p.mediaType = T)) = [] := by
    rw [List.filter_eq_nil_iff]
    intro p hp
    simpa using h p hp
  rw [this]
  rfl

theorem firstNonEmptyText_of_first (f : Str → Str) (parts : List Part) (p : Part)
    (h : firstTextPart parts = some p) (hne : renderedBody f p ≠ []) :
    firstNonEmptyText f parts = renderedBody f p := by
  unfold firstTextPart at h
  unfold firstNonEmptyText
  cases hf : parts.filter isTextPart with
  | nil => rw [hf] at h; simp at h
  | cons q qs =>
    rw [hf] at h
    simp only [List.head?_cons, Option.some.injEq] at h
    subst h
    rw [List.map_cons, List.find?_cons_of_pos _ (by simpa using hne)]
    rfl

/-- C3, as stated, fails: with preferred type `text/html`, a `text/plain` part
`P` and a `text/html` part with an empty body, the message has a part of the
preferred type and the description is `P`, which is the body of no `text/html`
part. -/
theorem get_description_preferred_counterexample :
    (∃ p ∈ ([⟨str "text/plain", str "P"⟩, ⟨str "text/html", []⟩] : List Part),
      p.mediaType = str "text/html") ∧
    get_description (fun b => some b) (str "text/html")
      [⟨str "text/plain", str "P"⟩, ⟨str "text/html", []⟩] = some (str "P") ∧
    ¬ ∃ p ∈ ([⟨str "text/plain", str "P"⟩, ⟨str "text/html", []⟩] : List Part),
      p.mediaType = str "text/html" ∧
      get_description (fun b => some b) (str "text/html")
        [⟨str "text/plain", str "P"⟩, ⟨str "text/html", []⟩] =
          some (escapeNewlines (renderedBody (fun b => b) p)) := by
  decide

/-- C3, amended: for every message, renderer and preferred type `T` among
`text/plain` and `text/html`, if the last part of type `T` in document order
has a non-empty recorded body (rendered when `T` is `text/html`), then
`get_description` returns the newline-escaped recorded body of that part,
whatever the order of the parts and whatever the other parts contain. -/
theorem get_description_preferred (f : Str → Str) (typ : Str) (parts : List Part) (p : Part)
    (hT : typ = str "text/plain" ∨ typ = str "text/html")
    (hl : lastOfType typ parts = some p) (hne : renderedBody f p ≠ []) :
    p ∈ parts ∧ p.mediaType = typ ∧
      get_description (fun b => some (f b)) typ parts =
        some (escapeNewlines (renderedBody f p)) := by
  obtain ⟨hmem, hty⟩ := lastOfType_mem typ parts p hl
  refine ⟨hmem, hty, ?_⟩
  obtain ⟨st, -, h1, h2, -, hg⟩ := get_description_total f typ parts
  rw [hg]
  rcases hT with hT | hT
  · subst hT
    rw [hl] at h2
    have hr : renderedBody f p = p.body := by
      simp [renderedBody, hty, html_ne_plain.symm]
    rw [hr] at hne ⊢
    simp only at h2
    simp [chooseBody, h2, hne]
  · subst hT
    rw [hl] at h1
    have hr : renderedBody f p = f p.body := by simp [renderedBody, hty]
    rw [hr] at hne ⊢
    simp only at h1
    simp [chooseBody, h1, hne, html_ne_plain]

/-- Witness of C3 (amended): an HTML part after a plain part, preferred type
`text/html`, a renderer that puts `*` in front of the text. -/
theorem get_description_preferred_witness :
    (⟨str "text/html", str "<p>h</p>"⟩ : Part) ∈
        ([⟨str "text/html", str "<b>a</b>"⟩, ⟨str "text/plain", str "P"⟩,
          ⟨str "text/html", str "<p>h</p>"⟩] : List Part) ∧
      (⟨str "text/html", str "<p>h</p>"⟩ : Part).mediaType = str "text/html" ∧
      get_description (fun b => some (byte 42 :: b)) (str "text/html")
        [⟨str "text/html", str "<b>a</b>"⟩, ⟨str "text/plain", str "P"⟩,
          ⟨str "text/html", str "<p>h</p>"⟩] =
        some (escapeNewlines
          (renderedBody (fun b => byte 42 :: b) ⟨str "text/html", str "<p>h</p>"⟩)) :=
  get_description_preferred (fun b => byte 42 :: b) (str "text/html")
    [⟨str "text/html", str "<b>a</b>"⟩, ⟨str "text/plain", str "P"⟩,
      ⟨str "text/html", str "<p>h</p>"⟩]
    ⟨str "text/html", str "<p>h</p>"⟩ (Or.inr rfl) (by decide) (by decide)

/-- C4, as stated, fails: with preferred type `text/html` and two `text/plain`
parts, the first with an empty body and the second with body `X`, no part has
the preferred type and the description is `X`, not the (empty) body of the
first part whose type is `text/plain` or `text/html`. -/
theorem get_description_fallback_counterexample :
    (∀ p ∈ ([⟨str "text/plain", []⟩, ⟨str "text/plain", str "X"⟩] : List Part),
      p.mediaType ≠ str "text/html") ∧
    firstTextPart [⟨str "text/plain", []⟩, ⟨str "text/plain", str "X"⟩] =
      some ⟨str "text/plain", []⟩ ∧
    get_description (fun b => some b) (str "text/html")
      [⟨str "text/plain", []⟩, ⟨str "text/plain", str "X"⟩] = some (str "X") ∧
    get_description (fun b => some b) (str "text/html")
      [⟨str "text/plain", []⟩, ⟨str "text/plain", str "X"⟩] ≠
        some (escapeNewlines (renderedBody (fun b => b) ⟨str "text/plain", []⟩)) := by
  decide

/-- C4, amended: for every message and renderer, when no part has the
configured preferred media type, `get_description` returns the newline-escaped
recorded body of the first part, in document order, whose media type is
`text/plain` or `text/html` and whose recorded body (rendered when it is
`text/html`) is not empty, and the empty string when there is no such part; in
particular it returns the newline-escaped recorded body of the first part of
type `text/plain` or `text/html` when that body is not empty. -/
theorem get_description_fallback (f : Str → Str) (typ : Str) (parts : List Part)
    (h : ∀ p ∈ parts, p.mediaType ≠ typ) :
    get_description (fun b => some (f b)) typ parts =
        some (escapeNewlines (firstNonEmptyText f parts)) ∧
      ∀ p, firstTextPart parts = some p → renderedBody f p ≠ [] →
        get_description (fun b => some (f b)) typ parts =
          some (escapeNewlines (renderedBody f p)) := by
  have main : get_description (fun b => some (f b)) typ parts =
      some (escapeNewlines (firstNonEmptyText f parts)) := by
    obtain ⟨st, -, h1, h2, h3, hg⟩ := get_description_total f typ parts
    have hnone := lastOfType_none typ parts h
    have hbody : chooseBody typ st = st.body := by
      unfold chooseBody
      by_cases hh : typ = str "text/html"
      · subst hh
        rw [hnone] at h1
        simp [h1, html_ne_plain]
      · by_cases hp : typ = str "text/plain"
        · subst hp
          rw [hnone] at h2
          simp [h2, html_ne_plain.symm]
        · simp [hh, hp]
    rw [hg, hbody, h3]
  refine ⟨main, ?_⟩
  intro p hp hne
  rw [main, firstNonEmptyText_of_first f parts p hp hne]

/-- Witness of C4 (amended): preferred type `text/html`, an attachment, a
plain part with an empty body and a plain part with body `X`. -/
theorem get_description_fallback_witness :
    get_description (fun b => some (byte 42 :: b)) (str "text/html")
        [⟨str "image/png", str "png"⟩, ⟨str "text/plain", []⟩, ⟨str "text/plain", str "X"⟩] =
      some (str "X") := by
  have h := (get_description_fallback (fun b => byte 42 :: b) (str "text/html")
    [⟨str "image/png", str "png"⟩, ⟨str "text/plain", []⟩, ⟨str "text/plain", str "X"⟩]
    (by decide)).1
  rw [h]
  decide

/-- C5: for every message, renderer and preferred type, `get_description`
returns the selected body (the value of `body` after the loop and the two
overrides) with every line feed replaced by backslash and `n` and every other
byte, commas, semicolons and backslashes included, unchanged; the result holds
no line feed.  A single `text/plain` part `Line1<LF>Line2` with preferred type
`text/plain` yields `Line1\nLine2`. -/
theorem get_description_escapes :
    (∀ (f : Str → Str) (typ : Str) (parts : List Part),
      ∃ st d, visitParts (fun b => some (f b)) parts ⟨[], [], []⟩ = some st ∧
        get_description (fun b => some (f b)) typ parts = some d ∧
        d = escapeNewlines (chooseBody typ st) ∧ LF ∉ d) ∧
    (∀ s t : Str, escapeNewlines (s ++ LF :: t) =
      escapeNewlines s ++ str "\\n" ++ escapeNewlines t) ∧
    (∀ s : Str, LF ∉ s → escapeNewlines s = s) ∧
    get_description (fun b => some b) (str "text/plain")
      [⟨str "text/plain", str "Line1\nLine2"⟩] = some (str "Line1\\nLine2") ∧
    get_description (fun b => some b) (str "text/plain")
      [⟨str "text/plain", str "a,b;c\\d\ne"⟩] = some (str "a,b;c\\d\\ne") := by
  refine ⟨?_, ?_, escapeNewlines_id, by decide, by decide⟩
  · intro f typ parts
    obtain ⟨st, hv, -, -, -, hg⟩ := get_description_total f typ parts
    exact ⟨st, _, hv, hg, rfl, escapeNewlines_no_LF _⟩
  · intro s t
    induction s with
    | nil =>
      rw [str_backslash_n]
      simp [escapeNewlines]
    | cons c tl ih =>
      by_cases hc : c = LF
      · rw [List.cons_append]
        simp only [escapeNewlines, if_pos hc, ih, List.cons_append]
      · rw [List.cons_append]
        simp only [escapeNewlines, if_neg hc, ih, List.cons_append]

/-- Witness of C5: a body with a comma, a semicolon and a backslash and no line
feed is left as it is. -/
theorem get_description_escapes_witness :
    escapeNewlines (str "a,b;c\\d") = str "a,b;c\\d" :=
  get_description_escapes.2.2.1 (str "a,b;c\\d") (by decide)

/-! ## Claims on `get_uuid` -/

/-- C7: for every 16 bytes delivered by the random source, `get_uuid` returns a
string of exactly 36 bytes: five groups of 8, 4, 4, 4 and 12 lowercase
hexadecimal digits, separated by single hyphens (at positions 8, 13, 18 and
23), the groups being the two-digit hex of bytes 0-3, 4-5, 6-7, 8-9 and 10-15
in order. -/
theorem get_uuid_format (r : Fin 16 → Byte) :
    ∃ g1 g2 g3 g4 g5 : Str,
      get_uuid (some r) =
        some (g1 ++ str "-" ++ g2 ++ str "-" ++ g3 ++ str "-" ++ g4 ++ str "-" ++ g5) ∧
      (g1 ++ str "-" ++ g2 ++ str "-" ++ g3 ++ str "-" ++ g4 ++ str "-" ++ g5).length = 36 ∧
      g1.length = 8 ∧ g2.length = 4 ∧ g3.length = 4 ∧ g4.length = 4 ∧ g5.length = 12 ∧
      (∀ c ∈ g1 ++ g2 ++ g3 ++ g4 ++ g5, isLowerHex c = true) ∧
      g1 = hexByte (r 0) ++ hexByte (r 1) ++ hexByte (r 2) ++ hexByte (r 3) ∧
      g2 = hexByte (r 4) ++ hexByte (r 5) ∧
      g3 = hexByte (r 6) ++ hexByte (r 7) ∧
      g4 = hexByte (r 8) ++ hexByte (r 9) ∧
      g5 = hexByte (r 10) ++ hexByte (r 11) ++ hexByte (r 12) ++ hexByte (r 13) ++
        hexByte (r 14) ++ hexByte (r 15) ∧
      ∀ i, i < 36 →
        ((g1 ++ str "-" ++ g2 ++ str "-" ++ g3 ++ str "-" ++ g4 ++ str "-" ++ g5).getD i 0
          = byte 45 ↔ (i = 8 ∨ i = 13 ∨ i = 18 ∨ i = 23)) := by
  refine ⟨_, _, _, _, _, get_uuid_eq r, ?_, rfl, rfl, rfl, rfl, rfl, ?_, rfl, rfl, rfl, rfl,
    rfl, ?_⟩
  · rfl
  · intro c hc
    simp only [List.mem_append] at hc
    repeat' (first | exact isLowerHex_hexByte _ c hc | (rcases hc with hc | hc))
  · intro i hi
    have hne : ∀ n, n < 16 → hexDigit n ≠ byte 45 := by
      intro n hn; interval_cases n <;> decide
    have h1 : ∀ b : Byte, hexDigit (b.val / 16) ≠ byte 45 := fun b => hne _ (by omega)
    have h2 : ∀ b : Byte, hexDigit (b.val % 16) ≠ byte 45 := fun b => hne _ (by omega)
    have hs : str "-" = [byte 45] := by decide
    simp only [hs, hexByte, List.cons_append, List.nil_append, List.append_assoc]
    interval_cases i <;> simp [h1, h2]

/-- Witness of C7: the identifier made from the bytes 3, 20, 37, ... has 36
bytes. -/
theorem get_uuid_format_witness :
    (get_uuid (some (fun i => byte (17 * i.val + 3)))).map List.length = some 36 := by
  obtain ⟨g1, g2, g3, g4, g5, h, hlen, -⟩ := get_uuid_format (fun i => byte (17 * i.val + 3))
  rw [h, Option.map_some', hlen]


set_option maxRecDepth 100000 in
/-- C10: for all values Created, Description, Dtstamp, Summary and Uuid, the
composed document is exactly the fixed template, BEGIN:VCALENDAR, VERSION:2.0,
PRODID, BEGIN:VTODO, CREATED, DESCRIPTION, DTSTAMP, LAST-MODIFIED,
PERCENT-COMPLETE:0, PRIORITY:0, SEQUENCE:6, STATUS:NEEDS-ACTION, SUMMARY, UID,
X-OC-HIDESUBTASKS:0, END:VTODO, END:VCALENDAR in that order with no trailing
newline, each value inserted verbatim, and the LAST-MODIFIED line carries the
value of the CREATED line. -/
theorem compose_template (summary dtstamp created description uuid : Str) :
    compose summary dtstamp created description uuid =
      joinLines
        [str "BEGIN:VCALENDAR",
         str "VERSION:2.0",
         str "PRODID:-//Nextcloud Tasks vundefined",
         str "BEGIN:VTODO",
         str "CREATED;VALUE=DATE-TIME:" ++ created,
         str "DESCRIPTION:" ++ description,
         str "DTSTAMP;VALUE=DATE-TIME:" ++ dtstamp,
         str "LAST-MODIFIED;VALUE=DATE-TIME:" ++ created,
         str "PERCENT-COMPLETE:0",
         str "PRIORITY:0",
         str "SEQUENCE:6",
         str "STATUS:NEEDS-ACTION",
         str "SUMMARY:" ++ summary,
         str "UID:" ++ uuid,
         str "X-OC-HIDESUBTASKS:0",
         str "END:VTODO",
         str "END:VCALENDAR"] := by
  rfl

/-! ## Claims on `main` -/

set_option maxRecDepth 100000 in
/-- C6 at a failing input: the Subject header
`=?UTF-8?Q?x=0AEND:VTODO=0ABEGIN:VTODO=0AUID:evil?=` holds no line feed, yet
its decoding does, and the document `main` composes for it has two lines
`BEGIN:VTODO`, two lines `END:VTODO` and two lines that start with `UID:`, the
first of which is not the generated identifier. -/
theorem main_forged_lines :
    LF ∉ str "=?UTF-8?Q?x=0AEND:VTODO=0ABEGIN:VTODO=0AUID:evil?=" ∧
    (main ⟨false, str "/cal", str "mail.eml", str "text/plain", []⟩
        ⟨none, fun _ _ text => text⟩ (some (fun i => byte i.val)) ⟨2024, 3, 9, 12, 0, 5, 0⟩
        ⟨str "=?UTF-8?Q?x=0AEND:VTODO=0ABEGIN:VTODO=0AUID:evil?=", none,
          [⟨str "text/plain", str "body"⟩]⟩).map
      (fun r => ((splitLines r.2).count (str "BEGIN:VTODO"),
        (splitLines r.2).count (str "END:VTODO"),
        (splitLines r.2).filter (fun l => startsWith (str "UID:") l))) =
      some (2, 2, [str "UID:evil", str "UID:00010203-0405-0607-0809-0a0b0c0d0e0f"]) := by
  decide

set_option maxRecDepth 100000 in
/-- C9 at a failing input: the Subject header `=?UTF-8?Q?a=0Ab?=` holds no line
feed, and the Summary made from it is `a`, a line feed, `b`. -/
theorem summary_line_feed :
    LF ∉ str "=?UTF-8?Q?a=0Ab?=" ∧
    EscapeString (subject_decode (str "=?UTF-8?Q?a=0Ab?=")) = str "a\nb" ∧
    LF ∈ EscapeString (subject_decode (str "=?UTF-8?Q?a=0Ab?=")) := by
  decide

/-! ## Further claims on `get_description` and `html_to_text` -/

theorem visitPart_other (render : Str → Option Str) (st : Bodies) (p : Part)
    (h : isTextPart p = false) : visitPart render st p = some st := by
  simp only [isTextPart, Bool.or_eq_false_iff, decide_eq_false_iff_not] at h
  simp only [visitPart, if_neg h.1, if_neg h.2]

theorem visitParts_filter (render : Str → Option Str) (parts : List Part) (st : Bodies) :
    visitParts render (parts.filter isTextPart) st = visitParts render parts st := by
  induction parts generalizing st with
  | nil => rfl
  | cons p ps ih =>
    cases ht : isTextPart p with
    | true =>
      rw [List.filter_cons_of_pos ht]
      simp only [visitParts]
      cases visitPart render st p with
      | none => rfl
      | some st1 => exact ih st1
    | false =>
      rw [List.filter_cons_of_neg (by simp [ht])]
      simp only [visitParts, visitPart_other render st p ht]
      exact ih st

/-- C11: `get_description` ignores the parts whose media type is neither
`text/plain` nor `text/html`: for every message, renderer (also one that may
end the process) and preferred type, the result is the result for the message
with all such parts removed. -/
theorem get_description_ignores_other (render : Str → Option Str) (typ : Str)
    (parts : List Part) :
    get_description render typ (parts.filter isTextPart) = get_description render typ parts := by
  simp only [get_description, visitParts_filter]

/-- C12: when `html-cmd` is the empty string, `html_to_text` returns its
argument unchanged for every text, whatever the operating system would answer
(no temporary file, no command); and a message whose only part is `text/html`
with body `b` has the description `b` with newlines escaped. -/
theorem html_to_text_passthrough (opts : Opts) (sys : Sys) (h : opts.HtmlCmd = []) :
    (∀ html : Str, html_to_text opts sys html = some html) ∧
    ∀ b : Str, get_description (html_to_text opts sys) opts.Typ [⟨str "text/html", b⟩] =
      some (escapeNewlines b) := by
  have h1 : ∀ html : Str, html_to_text opts sys html = some html := by
    intro html
    simp [html_to_text, h]
  refine ⟨h1, ?_⟩
  intro b
  simp only [get_description, visitParts, visitPart, h1, if_true, stringsReplace_newline]
  congr 2
  by_cases hb : b = []
  · simp [chooseBody, hb]
  · simp [chooseBody, hb]

/-- Witness of C12: an empty `html-cmd`, no temporary file to be had, a command
that would print nothing. -/
theorem html_to_text_passthrough_witness :
    html_to_text ⟨false, str "/cal", str "m.eml", str "text/plain", []⟩
        ⟨none, fun _ _ _ => []⟩ (str "<p>a</p>") = some (str "<p>a</p>") ∧
    get_description
        (html_to_text ⟨false, str "/cal", str "m.eml", str "text/plain", []⟩
          ⟨none, fun _ _ _ => []⟩)
        (str "text/plain") [⟨str "text/html", str "<p>a\nb</p>"⟩] =
      some (escapeNewlines (str "<p>a\nb</p>")) :=
  ⟨(html_to_text_passthrough ⟨false, str "/cal", str "m.eml", str "text/plain", []⟩
      ⟨none, fun _ _ _ => []⟩ rfl).1 (str "<p>a</p>"),
   (html_to_text_passthrough ⟨false, str "/cal", str "m.eml", str "text/plain", []⟩
      ⟨none, fun _ _ _ => []⟩ rfl).2 (str "<p>a\nb</p>")⟩

theorem visitParts_abort (render : Str → Option Str) (parts : List Part) (st : Bodies)
    (hr : ∀ b, render b = none) (hp : ∃ p ∈ parts, p.mediaType = str "text/html") :
    visitParts render parts st = none := by
  induction parts generalizing st with
  | nil => obtain ⟨p, hm, -⟩ := hp; simp at hm
  | cons q qs ih =>
    by_cases hq : q.mediaType = str "text/html"
    · simp only [visitParts, visitPart, if_pos hq, hr]
    · obtain ⟨p, hm, hty⟩ := hp
      have hmem : p ∈ qs := by
        rcases List.mem_cons.mp hm with h | h
        · subst h; exact absurd hty hq
        · exact h
      simp only [visitParts]
      cases visitPart render st q with
      | none => rfl
      | some st1 => exact ih st1 ⟨p, hmem, hty⟩

set_option maxRecDepth 100000 in
/-- C15, as stated, fails: with the default `html-cmd`, a temporary file that
cannot be created and a message with a `text/html` part, `html_to_text` returns
no text at all, not an empty one: `log.Fatal` ends the process, and `main`
composes and writes no document. -/
theorem html_to_text_temp_file_counterexample :
    html_to_text ⟨false, str "/cal", str "m.eml", str "text/plain", str "w3m -T text/html %s"⟩
        ⟨none, fun _ _ text => text⟩ (str "<p>x</p>") = none ∧
    html_to_text ⟨false, str "/cal", str "m.eml", str "text/plain", str "w3m -T text/html %s"⟩
        ⟨none, fun _ _ text => text⟩ (str "<p>x</p>") ≠ some [] ∧
    main ⟨false, str "/cal", str "m.eml", str "text/plain", str "w3m -T text/html %s"⟩
        ⟨none, fun _ _ text => text⟩ (some (fun i => byte i.val)) ⟨2024, 3, 9, 12, 0, 5, 0⟩
        ⟨str "Hello", none, [⟨str "text/html", str "<p>x</p>"⟩]⟩ = none := by
  decide

/-- C15, amended: when a command is configured and the creation of the
temporary file fails, `html_to_text` ends the process (`log.Fatal`) for every
text: it returns nothing, and for a message with a `text/html` part `main`
produces no output document. -/
theorem html_to_text_temp_file_failure (opts : Opts) (sys : Sys) (hc : opts.HtmlCmd ≠ [])
    (ht : sys.tempFile = none) :
    (∀ html : Str, html_to_text opts sys html = none) ∧
    ∀ (rnd : Option (Fin 16 → Byte)) (now : Time) (msg : Message),
      (∃ p ∈ msg.parts, p.mediaType = str "text/html") →
      main opts sys rnd now msg = none := by
  have h1 : ∀ html : Str, html_to_text opts sys html = none := by
    intro html
    simp [html_to_text, hc, ht]
  refine ⟨h1, ?_⟩
  intro rnd now msg hp
  have hv := visitParts_abort (html_to_text opts sys) msg.parts ⟨[], [], []⟩ h1 hp
  simp only [main, get_description, hv]
  cases get_uuid rnd <;> rfl

set_option maxRecDepth 100000 in
/-- Witness of C15 (amended): the default command and no temporary file. -/
theorem html_to_text_temp_file_failure_witness :
    html_to_text ⟨false, str "/cal", str "m.eml", str "text/plain", str "w3m -T text/html %s"⟩
        ⟨none, fun _ _ text => text⟩ (str "<b>x</b>") = none :=
  (html_to_text_temp_file_failure
    ⟨false, str "/cal", str "m.eml", str "text/plain", str "w3m -T text/html %s"⟩
    ⟨none, fun _ _ text => text⟩ (by decide) rfl).1 (str "<b>x</b>")

set_option maxRecDepth 100000 in
/-- C17, as stated, fails: the preferred type is a free string; with preferred
type `text/calendar` and parts `text/calendar` `X`, `text/calendar` `Y` and
`text/plain` `P`, the last part of the preferred type has the non-empty body
`Y`, yet no part of that type is recorded and the description is `P`. -/
theorem get_description_last_of_type_counterexample :
    lastOfType (str "text/calendar")
        [⟨str "text/calendar", str "X"⟩, ⟨str "text/calendar", str "Y"⟩,
          ⟨str "text/plain", str "P"⟩] = some ⟨str "text/calendar", str "Y"⟩ ∧
    renderedBody (fun b => b) ⟨str "text/calendar", str "Y"⟩ ≠ [] ∧
    get_description (fun b => some b) (str "text/calendar")
        [⟨str "text/calendar", str "X"⟩, ⟨str "text/calendar", str "Y"⟩,
          ⟨str "text/plain", str "P"⟩] = some (str "P") ∧
    get_description (fun b => some b) (str "text/calendar")
        [⟨str "text/calendar", str "X"⟩, ⟨str "text/calendar", str "Y"⟩,
          ⟨str "text/plain", str "P"⟩] ≠
      some (escapeNewlines (renderedBody (fun b => b) ⟨str "text/calendar", str "Y"⟩)) := by
  decide

/-- C17, amended: for every message, renderer and preferred type that is
`text/plain` or `text/html`, the value used for the final override is that of
the last part of the preferred type in document order: when its recorded body
(rendered when it is `text/html`) is not empty, the description is that body,
newline-escaped; when it is empty nothing is overridden and the description is
the newline-escaped recorded body of the first part of type `text/plain` or
`text/html` whose recorded body is not empty, the empty string if there is
none. -/
theorem get_description_last_of_type (f : Str → Str) (typ : Str) (parts : List Part)
    (p : Part) (hT : typ = str "text/plain" ∨ typ = str "text/html")
    (hl : lastOfType typ parts = some p) :
    (renderedBody f p ≠ [] →
      get_description (fun b => some (f b)) typ parts =
        some (escapeNewlines (renderedBody f p))) ∧
    (renderedBody f p = [] →
      get_description (fun b => some (f b)) typ parts =
        some (escapeNewlines (firstNonEmptyText f parts))) := by
  obtain ⟨-, hty⟩ := lastOfType_mem typ parts p hl
  obtain ⟨st, -, h1, h2, h3, hg⟩ := get_description_total f typ parts
  rw [hg]
  rcases hT with hT | hT
  · subst hT
    rw [hl] at h2
    simp only at h2
    have hr : renderedBody f p = p.body := by
      simp [renderedBody, hty, html_ne_plain.symm]
    rw [hr]
    constructor
    · intro hne
      simp [chooseBody, h2, hne]
    · intro he
      simp [chooseBody, h2, he, h3, html_ne_plain.symm]
  · subst hT
    rw [hl] at h1
    simp only at h1
    have hr : renderedBody f p = f p.body := by simp [renderedBody, hty]
    rw [hr]
    constructor
    · intro hne
      simp [chooseBody, h1, hne, html_ne_plain]
    · intro he
      simp [chooseBody, h1, he, h3, html_ne_plain]

set_option maxRecDepth 100000 in
/-- Witness of C17 (amended): three `text/plain` parts `A`, `B` and an empty one, with
preferred type `text/plain`: the last one is empty, so the description is `A`;
without the empty part it is `B`. -/
theorem get_description_last_of_type_witness :
    get_description (fun b => some b) (str "text/plain")
        [⟨str "text/plain", str "A"⟩, ⟨str "text/plain", str "B"⟩, ⟨str "text/plain", []⟩] =
      some (str "A") ∧
    get_description (fun b => some b) (str "text/plain")
        [⟨str "text/plain", str "A"⟩, ⟨str "text/plain", str "B"⟩] = some (str "B") := by
  constructor
  · have h := (get_description_last_of_type (fun b => b) (str "text/plain")
      [⟨str "text/plain", str "A"⟩, ⟨str "text/plain", str "B"⟩, ⟨str "text/plain", []⟩]
      ⟨str "text/plain", []⟩ (Or.inl rfl) (by decide)).2 (by decide)
    rw [h]
    decide
  · have h := (get_description_last_of_type (fun b => b) (str "text/plain")
      [⟨str "text/plain", str "A"⟩, ⟨str "text/plain", str "B"⟩]
      ⟨str "text/plain", str "B"⟩ (Or.inl rfl) (by decide)).1 (by decide)
    rw [h]
    decide

/-! ## Further claims on the Summary and on `subject_decode` -/

theorem EscapeString_cons (c : Byte) (tl : Str) :
    EscapeString (c :: tl) =
      (if c.val = 38 then str "&amp;"
       else if c.val = 39 then str "&#39;"
       else if c.val = 60 then str "&lt;"
       else if c.val = 62 then str "&gt;"
       else if c.val = 34 then str "&#34;"
       else [c]) ++ EscapeString tl := rfl

set_option maxRecDepth 100000 in
theorem EscapeString_no_raw (s : Str) :
    ∀ c ∈ EscapeString s, c ≠ byte 60 ∧ c ≠ byte 62 ∧ c ≠ byte 34 ∧ c ≠ byte 39 := by
  induction s with
  | nil => intro c hc; simp [EscapeString] at hc
  | cons a tl ih =>
    intro c hc
    rw [EscapeString_cons, List.mem_append] at hc
    rcases hc with hc | hc
    · split_ifs at hc with h1 h2 h3 h4 h5
      · revert c; decide
      · revert c; decide
      · revert c; decide
      · revert c; decide
      · revert c; decide
      · simp only [List.mem_singleton] at hc
        subst hc
        refine ⟨?_, ?_, ?_, ?_⟩ <;> intro e <;> rw [e] at h1 h2 h3 h4 h5 <;>
          first
            | exact h2 rfl
            | exact h3 rfl
            | exact h4 rfl
            | exact h5 rfl
    · exact ih c hc

set_option maxRecDepth 100000 in
theorem ampersands_entity (rest : Str) :
    ampersandsStartEntities (str "&amp;" ++ rest) = ampersandsStartEntities rest ∧
    ampersandsStartEntities (str "&#39;" ++ rest) = ampersandsStartEntities rest ∧
    ampersandsStartEntities (str "&lt;" ++ rest) = ampersandsStartEntities rest ∧
    ampersandsStartEntities (str "&gt;" ++ rest) = ampersandsStartEntities rest ∧
    ampersandsStartEntities (str "&#34;" ++ rest) = ampersandsStartEntities rest :=
  ⟨rfl, rfl, rfl, rfl, rfl⟩

theorem ampersands_other (c : Byte) (rest : Str) (h : c ≠ AMP) :
    ampersandsStartEntities (c :: rest) = ampersandsStartEntities rest := by
  have hb : (c != AMP) = true := by simpa using h
  simp only [ampersandsStartEntities, hb, Bool.true_or, Bool.true_and]

theorem EscapeString_ampersands (s : Str) : ampersandsStartEntities (EscapeString s) = true := by
  induction s with
  | nil => rfl
  | cons a tl ih =>
    obtain ⟨e1, e2, e3, e4, e5⟩ := ampersands_entity (EscapeString tl)
    rw [EscapeString_cons]
    split_ifs with h1 h2 h3 h4 h5
    · rw [e1, ih]
    · rw [e2, ih]
    · rw [e3, ih]
    · rw [e4, ih]
    · rw [e5, ih]
    · have ha : a ≠ AMP := fun e => h1 (by rw [e]; rfl)
      rw [List.singleton_append, ampersands_other a _ ha, ih]

theorem startsWith_prefix (e s : Str) (h : startsWith e s = true) : ∃ rest, s = e ++ rest := by
  induction e generalizing s with
  | nil => exact ⟨s, rfl⟩
  | cons p ps ih =>
    cases s with
    | nil => simp [startsWith] at h
    | cons c cs =>
      simp only [startsWith, Bool.and_eq_true, beq_iff_eq] at h
      obtain ⟨rest, hr⟩ := ih cs h.2
      exact ⟨rest, by rw [h.1, hr]; rfl⟩

theorem ampersands_spec (s : Str) (h : ampersandsStartEntities s = true) :
    ∀ pre post : Str, s = pre ++ AMP :: post →
      ∃ e ∈ entities, ∃ rest, AMP :: post = e ++ rest := by
  intro pre
  induction pre generalizing s with
  | nil =>
    intro post hs
    subst hs
    simp only [List.nil_append, ampersandsStartEntities, bne_self_eq_false, Bool.false_or,
      Bool.and_eq_true, List.any_eq_true] at h
    obtain ⟨⟨e, he, hst⟩, -⟩ := h
    exact ⟨e, he, startsWith_prefix e _ hst⟩
  | cons c pre ih =>
    intro post hs
    subst hs
    simp only [List.cons_append, ampersandsStartEntities, Bool.and_eq_true] at h
    exact ih _ h.2 post rfl

/-- C13: for every raw subject, the Summary `main` puts in the document is
`html.EscapeString` applied to the decoded subject, escaping after decoding; it
holds none of the raw bytes `<`, `>`, `"` and `'`, and every `&` in it starts
one of the entities `&lt;`, `&gt;`, `&amp;`, `&#39;`, `&#34;`. -/
theorem summary_escaped :
    (∀ subject : Str, ∀ c ∈ EscapeString (subject_decode subject),
      c ≠ byte 60 ∧ c ≠ byte 62 ∧ c ≠ byte 34 ∧ c ≠ byte 39) ∧
    (∀ subject pre post : Str, EscapeString (subject_decode subject) = pre ++ AMP :: post →
      ∃ e ∈ entities, ∃ rest, AMP :: post = e ++ rest) ∧
    (∀ (opts : Opts) (sys : Sys) (rnd : Option (Fin 16 → Byte)) (now : Time) (msg : Message)
      (file content : Str), main opts sys rnd now msg = some (file, content) →
      ∃ dtstamp created description uuid : Str,
        content = joinLines (docLines (EscapeString (subject_decode msg.subject))
          dtstamp created description uuid)) := by
  refine ⟨fun subject => EscapeString_no_raw _, ?_, ?_⟩
  · intro subject pre post hs
    exact ampersands_spec _ (EscapeString_ampersands _) pre post hs
  · intro opts sys rnd now msg file content h
    obtain ⟨u, d, -, -, -, hc⟩ := main_content opts sys rnd now msg file content h
    exact ⟨_, _, d, u, by rw [hc, compose_eq]⟩

set_option maxRecDepth 100000 in
/-- Witness of C13: the subject `a<b&c` gives the Summary `a&lt;b&amp;c`, whose
second `&` starts an entity. -/
theorem summary_escaped_witness :
    ∃ e ∈ entities, ∃ rest, AMP :: str "amp;c" = e ++ rest :=
  summary_escaped.2.1 (str "a<b&c") (str "a&lt;b") (str "amp;c") (by decide)

/-! ### The percent-decoding error -/

theorem percentWellFormed_percent (a b : Byte) (rest : Str) :
    percentWellFormed (PERCENT :: a :: b :: rest) =
      (ishex a && ishex b && percentWellFormed rest) := rfl

/-- A `%` that is not followed by two hexadecimal digits makes the first loop
of `unescape` fail. -/
theorem hasBadPercent_not_wellFormed (n : Nat) :
    ∀ s : Str, s.length ≤ n → HasBadPercent s → percentWellFormed s = false := by
  induction n with
  | zero =>
    intro s hl ⟨pre, post, hs, _⟩
    have : s = [] := List.length_eq_zero.mp (Nat.le_zero.mp hl)
    rw [this] at hs
    simp at hs
  | succ n ih =>
    intro s hl ⟨pre, post, hs, hbad⟩
    cases s with
    | nil => simp at hs
    | cons c tl =>
      by_cases hc : c = PERCENT
      · subst hc
        rcases tl with _ | ⟨a, _ | ⟨b, rest⟩⟩
        · rfl
        · rfl
        · rw [percentWellFormed_percent]
          cases ha : ishex a with
          | false => rfl
          | true =>
            cases hb : ishex b with
            | false => rfl
            | true =>
              simp only [Bool.and_self, Bool.true_and]
              apply ih rest (by simp at hl ⊢; omega)
              rcases pre with _ | ⟨x, _ | ⟨y, _ | ⟨z, pre2⟩⟩⟩
              · simp only [List.nil_append, List.cons.injEq, true_and] at hs
                exact absurd ⟨a, b, rest, hs.symm, ha, hb⟩ hbad
              · simp only [List.cons_append, List.nil_append, List.cons.injEq] at hs
                rw [hs.2.1] at ha
                exact absurd ha (by decide)
              · simp only [List.cons_append, List.nil_append, List.cons.injEq] at hs
                rw [hs.2.2.1] at hb
                exact absurd hb (by decide)
              · simp only [List.cons_append, List.cons.injEq] at hs
                exact ⟨pre2, post, hs.2.2.2, hbad⟩
      · rw [percentWellFormed_cons _ _ hc]
        apply ih tl (by simp at hl ⊢; omega)
        cases pre with
        | nil =>
          simp only [List.nil_append, List.cons.injEq] at hs
          exact absurd hs.1 hc
        | cons x pre1 =>
          simp only [List.cons_append, List.cons.injEq] at hs
          exact ⟨pre1, post, hs.2, hbad⟩

theorem pathUnescape_bad (s : Str) (h : HasBadPercent s) : PathUnescape s = none := by
  simp [PathUnescape, hasBadPercent_not_wellFormed s.length s (Nat.le_refl _) h]

set_option maxRecDepth 100000 in
/-- C18, as stated, fails: in the subject `=?UTF-8?Q?100%?=41` the payload is
`100%`, whose `%` is followed by no hexadecimal digit, yet the text `41` that
follows the token is kept by step 1 and completes the escape: the result is
`100A`, not the empty string. -/
theorem subject_decode_bad_percent_counterexample :
    matchEncodedWord (str "=?UTF-8?Q?100%?=41") = some (str "100%", str "41") ∧
    HasBadPercent (replaceQuotedHex (str "100%")) ∧
    subject_decode (str "=?UTF-8?Q?100%?=41") = str "100A" ∧
    subject_decode (str "=?UTF-8?Q?100%?=41") ≠ [] := by
  refine ⟨by decide, ⟨str "100", [], by decide, ?_⟩, by decide, by decide⟩
  rintro ⟨a, b, rest, h, -⟩
  simp at h

set_option maxRecDepth 100000 in
/-- C18, amended: for every subject that starts with an encoded-word token, if
the string left by step 1, the payload followed by the text after the token,
contains after the `=XX` to `%XX` substitution a `%` that is not followed by
two hexadecimal digits, `subject_decode` returns the empty string; so it does
for a subject that is the token alone when its payload, after the
substitution, contains such a `%`, as in `=?UTF-8?Q?100% done?=`. -/
theorem subject_decode_bad_percent :
    (∀ name : Str, StartsWithEncodedWord name →
      HasBadPercent (replaceQuotedHex (replaceEncodedWord name)) → subject_decode name = []) ∧
    (∀ charset e payload : Str, (∀ b ∈ charset, isCharsetByte b = true) → IsChar e →
      LF ∉ payload → HasBadPercent (replaceQuotedHex payload) →
      subject_decode (str "=?" ++ charset ++ str "?" ++ e ++ str "?" ++ payload ++ str "?=")
        = []) ∧
    subject_decode (str "=?UTF-8?Q?100% done?=") = [] := by
  refine ⟨?_, ?_, by decide⟩
  · intro name hs hbad
    obtain ⟨⟨cap, after⟩, hm⟩ :=
      Option.isSome_iff_exists.mp ((startsWithEncodedWord_iff name).mp hs)
    have hr : replaceEncodedWord name = cap ++ after := by simp [replaceEncodedWord, hm]
    rw [hr] at hbad
    rw [subject_decode_of_match name cap after hm, pathUnescape_bad _ hbad]
    rfl
  · intro charset e payload hc he hlf hbad
    have hm : matchEncodedWord
        (str "=?" ++ charset ++ str "?" ++ e ++ str "?" ++ payload ++ str "?=")
          = some (payload, []) := by
      have h := token_eq charset e payload []
      rw [List.append_nil] at h
      rw [h, matchEncodedWord_token _ _ _ hc he]
      exact matchPayload_append payload [] hlf rfl
    rw [subject_decode_of_match _ _ _ hm, List.append_nil, pathUnescape_bad _ hbad]
    rfl

set_option maxRecDepth 100000 in
/-- Witness of C18 (amended): the subject `=?UTF-8?Q?50%?= off`, where the
text after the token does not complete the escape. -/
theorem subject_decode_bad_percent_witness :
    subject_decode (str "=?UTF-8?Q?50%?= off") = [] :=
  subject_decode_bad_percent.1 (str "=?UTF-8?Q?50%?= off")
    ((startsWithEncodedWord_iff _).mpr (by decide))
    ⟨str "50", [byte 32, byte 111, byte 102, byte 102], by decide, by
      rintro ⟨a, b, rest, h, ha, -⟩
      simp only [List.cons.injEq] at h
      rw [← h.1] at ha
      exact absurd ha (by decide)⟩

/-! ## Claims on the time stamps, the parse error and the identifier -/

/-- C14: for every time with a year from 0 to 9999, the stamp written on the
CREATED, LAST-MODIFIED and DTSTAMP lines has exactly 16 bytes: the year with
four digits, month and day with two, the letter `T`, hour, minute and second
with two digits, the letter `Z`; the stamp of the zero time is
`00010101T000000Z`, and this is the DTSTAMP value of a message whose Date
header is absent or unparsable. -/
theorem formatStamp_layout :
    (∀ t : Time, t.Valid → 0 ≤ t.year → t.year ≤ 9999 →
      formatStamp t =
        pad4 t.year.toNat ++ pad2 t.month ++ pad2 t.day ++ str "T" ++
          pad2 t.hour ++ pad2 t.minute ++ pad2 t.second ++ str "Z" ∧
      (formatStamp t).length = 16) ∧
    formatStamp zeroTime = str "00010101T000000Z" ∧
    (∀ (opts : Opts) (sys : Sys) (rnd : Option (Fin 16 → Byte)) (now : Time) (msg : Message)
      (file content : Str), main opts sys rnd now msg = some (file, content) →
      ∃ summary description uuid : Str,
        content = joinLines (docLines summary (formatStamp (msg.date.getD zeroTime))
          (formatStamp now) description uuid) ∧
        (msg.date = none →
          content = joinLines (docLines summary (str "00010101T000000Z")
            (formatStamp now) description uuid))) := by
  refine ⟨?_, by decide, ?_⟩
  · intro t hv h0 h1
    have h := formatStamp_eq t hv h0 h1
    refine ⟨h, ?_⟩
    rw [h]
    rfl
  · intro opts sys rnd now msg file content h
    obtain ⟨u, d, -, -, -, hc⟩ := main_content opts sys rnd now msg file content h
    refine ⟨_, d, u, by rw [hc, compose_eq], ?_⟩
    intro hd
    rw [hc, compose_eq, hd]
    rfl

/-- Witness of C14: 9 March 2024, 12:00:05. -/
theorem formatStamp_layout_witness :
    formatStamp ⟨2024, 3, 9, 12, 0, 5, 7200⟩ =
        pad4 2024 ++ pad2 3 ++ pad2 9 ++ str "T" ++ pad2 12 ++ pad2 0 ++ pad2 5 ++ str "Z" ∧
      (formatStamp ⟨2024, 3, 9, 12, 0, 5, 7200⟩).length = 16 :=
  formatStamp_layout.1 ⟨2024, 3, 9, 12, 0, 5, 7200⟩ (by decide) (by decide) (by decide)

set_option maxRecDepth 100000 in
/-- C19: the DTSTAMP and CREATED values `main` writes are the date and clock
time the value shows in its own zone, followed by a literal `Z`, without
conversion to UTC: the stamp does not depend on the zone offset; two times that
denote the same instant with different zone offsets have different stamps, and
two messages whose Date values do so get different DTSTAMP lines; the CREATED,
DTSTAMP and LAST-MODIFIED lines of the document carry the stamps of the
current time and of the Date value as they are; and a Date of 12:00:00 +0200 is
written `T120000Z`, not `T100000Z`, the stamp of the same instant in UTC. -/
theorem formatStamp_wall_clock :
    (∀ (t : Time) (o : Int), formatStamp { t with offset := o } = formatStamp t) ∧
    (∀ t1 t2 : Time, t1.Valid → t2.Valid → instant t1 = instant t2 →
      t1.offset ≠ t2.offset → formatStamp t1 ≠ formatStamp t2) ∧
    formatStamp ⟨2024, 3, 9, 12, 0, 0, 7200⟩ = str "20240309T120000Z" ∧
    formatStamp ⟨2024, 3, 9, 10, 0, 0, 0⟩ = str "20240309T100000Z" ∧
    instant ⟨2024, 3, 9, 12, 0, 0, 7200⟩ = instant ⟨2024, 3, 9, 10, 0, 0, 0⟩ ∧
    civilDays 1970 1 1 = 0 ∧ civilDays 2000 3 1 = 11017 ∧
    (∀ (opts : Opts) (sys : Sys) (rnd : Option (Fin 16 → Byte)) (now : Time) (msg : Message)
      (file content : Str), main opts sys rnd now msg = some (file, content) →
      (splitLines content)[4]? = some (str "CREATED;VALUE=DATE-TIME:" ++ formatStamp now) ∧
      (splitLines content)[6]? =
        some (str "DTSTAMP;VALUE=DATE-TIME:" ++ formatStamp (msg.date.getD zeroTime)) ∧
      (splitLines content)[7]? =
        some (str "LAST-MODIFIED;VALUE=DATE-TIME:" ++ formatStamp now)) ∧
    (∀ (opts : Opts) (sys : Sys) (rnd : Option (Fin 16 → Byte)) (now : Time)
      (msg1 msg2 : Message) (t1 t2 : Time) (file1 content1 file2 content2 : Str),
      msg1.date = some t1 → msg2.date = some t2 → t1.Valid → t2.Valid →
      instant t1 = instant t2 → t1.offset ≠ t2.offset →
      main opts sys rnd now msg1 = some (file1, content1) →
      main opts sys rnd now msg2 = some (file2, content2) →
      (splitLines content1)[6]? ≠ (splitLines content2)[6]?) ∧
    (main ⟨false, str "/cal", str "m.eml", str "text/plain", []⟩
        ⟨none, fun _ _ text => text⟩ (some (fun i => byte i.val)) ⟨2024, 3, 9, 14, 30, 0, 3600⟩
        ⟨str "Hello", some ⟨2024, 3, 9, 12, 0, 0, 7200⟩,
          [⟨str "text/plain", str "body"⟩]⟩).map (fun r => (splitLines r.2)[6]?) =
      some (some (str "DTSTAMP;VALUE=DATE-TIME:20240309T120000Z")) := by
  refine ⟨fun t o => rfl, formatStamp_ne_of_instant, by decide, by decide, by decide,
    by decide, by decide, ?_, ?_, by decide⟩
  · intro opts sys rnd now msg file content h
    obtain ⟨d, tail, -, hs⟩ := main_stamp_lines opts sys rnd now msg file content h
    rw [hs]
    refine ⟨rfl, rfl, ?_⟩
    simp only [List.cons_append, List.nil_append, List.getElem?_cons_succ,
      List.getElem?_cons_zero]
  · intro opts sys rnd now msg1 msg2 t1 t2 file1 content1 file2 content2 hd1 hd2 hv1 hv2 hi ho
      h1 h2 he
    rw [main_dtstamp_line opts sys rnd now msg1 file1 content1 h1,
      main_dtstamp_line opts sys rnd now msg2 file2 content2 h2, hd1, hd2] at he
    simp only [Option.getD_some, Option.some.injEq] at he
    exact formatStamp_ne_of_instant t1 t2 hv1 hv2 hi ho (List.append_cancel_left he)

set_option maxRecDepth 100000 in
/-- Witness of C19: two messages dated noon at +0200 and 11:00 at +0100 on
9 March 2024, the same instant, get different DTSTAMP lines. -/
theorem formatStamp_wall_clock_witness :
    (main ⟨false, str "/cal", str "m.eml", str "text/plain", []⟩
        ⟨none, fun _ _ text => text⟩ (some (fun i => byte i.val)) ⟨2024, 3, 9, 14, 30, 0, 3600⟩
        ⟨str "Hello", some ⟨2024, 3, 9, 12, 0, 0, 7200⟩,
          [⟨str "text/plain", str "body"⟩]⟩).map (fun r => (splitLines r.2)[6]?) ≠
    (main ⟨false, str "/cal", str "m.eml", str "text/plain", []⟩
        ⟨none, fun _ _ text => text⟩ (some (fun i => byte i.val)) ⟨2024, 3, 9, 14, 30, 0, 3600⟩
        ⟨str "Hello", some ⟨2024, 3, 9, 11, 0, 0, 3600⟩,
          [⟨str "text/plain", str "body"⟩]⟩).map (fun r => (splitLines r.2)[6]?) := by
  have s1 : (main ⟨false, str "/cal", str "m.eml", str "text/plain", []⟩
        ⟨none, fun _ _ text => text⟩ (some (fun i => byte i.val)) ⟨2024, 3, 9, 14, 30, 0, 3600⟩
        ⟨str "Hello", some ⟨2024, 3, 9, 12, 0, 0, 7200⟩,
          [⟨str "text/plain", str "body"⟩]⟩).isSome = true := by decide
  have s2 : (main ⟨false, str "/cal", str "m.eml", str "text/plain", []⟩
        ⟨none, fun _ _ text => text⟩ (some (fun i => byte i.val)) ⟨2024, 3, 9, 14, 30, 0, 3600⟩
        ⟨str "Hello", some ⟨2024, 3, 9, 11, 0, 0, 3600⟩,
          [⟨str "text/plain", str "body"⟩]⟩).isSome = true := by decide
  obtain ⟨⟨f1, c1⟩, e1⟩ := Option.isSome_iff_exists.mp s1
  obtain ⟨⟨f2, c2⟩, e2⟩ := Option.isSome_iff_exists.mp s2
  have hne := formatStamp_wall_clock.2.2.2.2.2.2.2.2.1 _ _ _ _ _ _
    ⟨2024, 3, 9, 12, 0, 0, 7200⟩ ⟨2024, 3, 9, 11, 0, 0, 3600⟩ f1 c1 f2 c2 rfl rfl
    (by decide) (by decide) (by decide) (by decide) e1 e2
  rw [e1, e2]
  simp only [Option.map_some', ne_eq, Option.some.injEq]
  exact hne

set_option maxRecDepth 100000 in
/-- C16 at a failing input: when the parser yields no message, `main` ends in a
nil pointer dereference and composes no document, whereas for an empty message
(no subject, no parts, no date) it composes one. -/
theorem main_nil_message :
    mainFromFile ⟨false, str "/cal", str "m.eml", str "text/plain", []⟩
        ⟨none, fun _ _ text => text⟩ (some (fun i => byte i.val)) ⟨2024, 3, 9, 12, 0, 5, 0⟩
        none = none ∧
    (mainFromFile ⟨false, str "/cal", str "m.eml", str "text/plain", []⟩
        ⟨none, fun _ _ text => text⟩ (some (fun i => byte i.val)) ⟨2024, 3, 9, 12, 0, 5, 0⟩
        (some ⟨[], none, []⟩)).isSome = true := by
  decide

theorem hexDigit_val (n : Nat) (h : n < 16) :
    (hexDigit n).val = if n < 10 then 48 + n else 87 + n := by
  unfold hexDigit
  split_ifs <;> simp only [byte] <;> omega

theorem hexByte_digits_inj (x y : Byte) (h1 : hexDigit (x.val / 16) = hexDigit (y.val / 16))
    (h2 : hexDigit (x.val % 16) = hexDigit (y.val % 16)) : x = y := by
  have e1 := congrArg Fin.val h1
  have e2 := congrArg Fin.val h2
  rw [hexDigit_val _ (by omega), hexDigit_val _ (by omega)] at e1 e2
  apply Fin.ext
  split_ifs at e1 e2 <;> omega

/-- The formatting of `get_uuid` is injective. -/
theorem get_uuid_inj (r1 r2 : Fin 16 → Byte) (h : get_uuid (some r1) = get_uuid (some r2)) :
    r1 = r2 := by
  rw [get_uuid_eq, get_uuid_eq] at h
  have hs : str "-" = [byte 45] := by decide
  simp only [Option.some.injEq, hs, hexByte, List.cons_append, List.nil_append,
    List.append_assoc, List.cons.injEq, true_and, and_true] at h
  obtain ⟨a0, b0, a1, b1, a2, b2, a3, b3, a4, b4, a5, b5, a6, b6, a7, b7, a8, b8, a9, b9, a10, b10, a11, b11, a12, b12, a13, b13, a14, b14, a15, b15⟩ := h
  funext i
  fin_cases i
  · exact hexByte_digits_inj _ _ a0 b0
  · exact hexByte_digits_inj _ _ a1 b1
  · exact hexByte_digits_inj _ _ a2 b2
  · exact hexByte_digits_inj _ _ a3 b3
  · exact hexByte_digits_inj _ _ a4 b4
  · exact hexByte_digits_inj _ _ a5 b5
  · exact hexByte_digits_inj _ _ a6 b6
  · exact hexByte_digits_inj _ _ a7 b7
  · exact hexByte_digits_inj _ _ a8 b8
  · exact hexByte_digits_inj _ _ a9 b9
  · exact hexByte_digits_inj _ _ a10 b10
  · exact hexByte_digits_inj _ _ a11 b11
  · exact hexByte_digits_inj _ _ a12 b12
  · exact hexByte_digits_inj _ _ a13 b13
  · exact hexByte_digits_inj _ _ a14 b14
  · exact hexByte_digits_inj _ _ a15 b15

/-- C20: the formatting step of `get_uuid` is injective: two different 16-byte
values give two different identifiers, hence two different output file names
in the same directory. -/
theorem get_uuid_injective :
    (∀ r1 r2 : Fin 16 → Byte, get_uuid (some r1) = get_uuid (some r2) → r1 = r2) ∧
    (∀ (r1 r2 : Fin 16 → Byte) (u1 u2 path : Str), r1 ≠ r2 →
      get_uuid (some r1) = some u1 → get_uuid (some r2) = some u2 →
      u1 ≠ u2 ∧ path ++ str "/" ++ u1 ++ str ".ics" ≠ path ++ str "/" ++ u2 ++ str ".ics") := by
  refine ⟨get_uuid_inj, ?_⟩
  intro r1 r2 u1 u2 path hne h1 h2
  have hu : u1 ≠ u2 := by
    intro e
    apply hne
    apply get_uuid_inj
    rw [h1, h2, e]
  refine ⟨hu, ?_⟩
  intro e
  apply hu
  have e1 := List.append_cancel_right e
  simp only [List.append_assoc] at e1
  exact List.append_cancel_left (List.append_cancel_left e1)

set_option maxRecDepth 100000 in
/-- Witness of C20: two draws that differ in the last byte only. -/
theorem get_uuid_injective_witness :
    str "00000000-0000-0000-0000-000000000000" ≠ str "00000000-0000-0000-0000-000000000001" ∧
    str "/cal" ++ str "/" ++ str "00000000-0000-0000-0000-000000000000" ++ str ".ics" ≠
      str "/cal" ++ str "/" ++ str "00000000-0000-0000-0000-000000000001" ++ str ".ics" :=
  get_uuid_injective.2 (fun _ => byte 0) (fun i => if i.val = 15 then byte 1 else byte 0)
    _ _ (str "/cal")
    (fun e => absurd (congrFun e 15) (by decide)) (by decide) (by decide)

end EmailToVtodo
